import Mathlib

/-!
# Shallow embedding of the kb-labs setup engine

This file embeds the core of the `@kb-labs/setup-engine` package
(analyzer, planner, transactional executor, change journal) as executable
Lean definitions, and proves the specification claims about them.

Modelling conventions, fixed once here:

* File bytes are modelled as `String` (encodings are identities: the code
  only ever round-trips `Buffer.from(s, enc)`/`buffer.toString(enc)` with a
  single declared encoding per operation).
* JSON documents are the inductive `Json` below.  JavaScript object key
  order is preserved (`Json.JObj` is an ordered association list), matching
  V8 insertion-order semantics and making structural equality of `Json`
  coincide with `JSON.stringify` string equality (`isEqual` in the source).
  Prototype-chain properties (`__proto__`, inherited keys) are outside the
  model.
* The workspace filesystem is a finite map from resolved absolute paths
  (segment lists) to file entries; directories are implicit.  A config or
  script file written by the engine is stored as `Content.jdoc`, whose
  on-disk bytes are its pretty-printed rendering; `Content.text` stands for
  bytes that are not an engine-written JSON document (`JSON.parse` of such
  bytes is modelled as failing unless they are whitespace-only, which the
  source maps to `{}`).
* `Date.now()` is modelled by a strictly increasing clock in the state, so
  each backup file and log file receives a fresh numeric key; the actual
  backup filename is derived injectively from that key, the sanitised
  operation id and relative path.
* `sha256` is an abstract parameter `hash : String → String`; theorems
  quantify over it.
* Template-based file content (`operation.template`) is outside the
  modelled fragment; the claims under verification exercise inline content
  and the `rawContentBase64` annotation only.
-/

namespace SetupEngine

/-! ## JSON values (mutual inductive to keep recursion structural) -/

mutual

inductive Json where
  | null : Json
  | jbool (b : Bool) : Json
  | num (n : Int) : Json
  | str (s : String) : Json
  | arr (xs : JsonArr) : Json
  | obj (fs : JsonObj) : Json
  deriving DecidableEq, Repr

inductive JsonArr where
  | nil : JsonArr
  | cons (hd : Json) (tl : JsonArr) : JsonArr
  deriving DecidableEq, Repr

inductive JsonObj where
  | nil : JsonObj
  | cons (k : String) (v : Json) (tl : JsonObj) : JsonObj
  deriving DecidableEq, Repr

end

namespace JsonArr

def length : JsonArr → Nat
  | .nil => 0
  | .cons _ tl => 1 + tl.length

def get? : JsonArr → Nat → Option Json
  | .nil, _ => none
  | .cons hd _, 0 => some hd
  | .cons _ tl, n + 1 => tl.get? n

def set : JsonArr → Nat → Json → JsonArr
  | .nil, _, _ => .nil
  | .cons _ tl, 0, v => .cons v tl
  | .cons hd tl, n + 1, v => .cons hd (tl.set n v)

end JsonArr

namespace JsonObj

/-- Own-property lookup on a JS object (insertion-ordered). -/
def lookup : JsonObj → String → Option Json
  | .nil, _ => none
  | .cons k v tl, key => if k = key then some v else tl.lookup key

/-- JS property assignment: overwrite in place, else append (insertion order). -/
def setKey : JsonObj → String → Json → JsonObj
  | .nil, key, v => .cons key v .nil
  | .cons k w tl, key, v =>
      if k = key then .cons k v tl else .cons k w (tl.setKey key v)

/-- JS `delete obj[key]` on a plain object. -/
def delKey : JsonObj → String → JsonObj
  | .nil, _ => .nil
  | .cons k v tl, key => if k = key then tl else .cons k v (tl.delKey key)

def keys : JsonObj → List String
  | .nil => []
  | .cons k _ tl => k :: tl.keys

def length : JsonObj → Nat
  | .nil => 0
  | .cons _ _ tl => 1 + tl.length

end JsonObj

namespace Json

/-- A canonical array index, as JS arrays accept it: the decimal rendering of
the index must be exactly the key (so `"01"` is a plain property, not index 1). -/
def arrayIndex? (k : String) : Option Nat :=
  match k.toNat? with
  | some i => if toString i = k then some i else none
  | none => none

/-- JS property read `value[key]` restricted to JSON-representable data:
own keys of objects, canonical indices of arrays.  Index properties of
primitives and prototype-inherited keys are outside the model. -/
def getProp : Json → String → Option Json
  | .obj fs, k => fs.lookup k
  | .arr xs, k => match arrayIndex? k with
      | some i => xs.get? i
      | none => none
  | _, _ => none

/-- JS property write `value[key] = v`, observed through `JSON.stringify`:
a non-index property set on an array is invisible to serialisation, and a
write to a primitive has no JSON-visible effect, so both are identities. -/
def setProp : Json → String → Json → Json
  | .obj fs, k, v => .obj (fs.setKey k v)
  | .arr xs, k, v => match arrayIndex? k with
      | some i => .arr (xs.set i v)
      | none => .arr xs
  | j, _, _ => j

/-- JS `delete value[key]`: deleting an array index leaves a hole, which
`JSON.stringify` renders as `null`. -/
def delProp : Json → String → Json
  | .obj fs, k => .obj (fs.delKey k)
  | .arr xs, k => match arrayIndex? k with
      | some i => .arr (xs.set i .null)
      | none => .arr xs
  | j, _ => j

/-- JS `key in value` for JSON data (own properties / valid indices). -/
def hasProp (j : Json) (k : String) : Bool :=
  (j.getProp k).isSome

/-- `typeof v === 'object' && v !== null` — true for objects AND arrays. -/
def isObjLike : Json → Bool
  | .obj _ => true
  | .arr _ => true
  | _ => false

/-- A plain object (`typeof === 'object'`, not `null`, not an array). -/
def isObj : Json → Bool
  | .obj _ => true
  | _ => false

/-- JS truthiness of a JSON value. -/
def truthy : Json → Bool
  | .null => false
  | .jbool b => b
  | .num n => n != 0
  | .str s => s ≠ ""
  | .arr _ => true
  | .obj _ => true

end Json

/-- `isEqual` from `executor.ts`: `JSON.stringify(a) === JSON.stringify(b)`.
Since objects stringify their keys in insertion order and our numbers are
canonical integers, stringify is injective on `Json`, so this is structural
equality.  The `undefined` cases are handled at call sites via `Option`. -/
def isEqual (a b : Json) : Bool := a = b

/-- `isEqual` where the left side may be JS `undefined` (`JSON.stringify`
of `undefined` is `undefined`, never equal to the stringify of a value). -/
def isEqualOpt (a : Option Json) (b : Json) : Bool :=
  match a with
  | none => false
  | some x => isEqual x b

end SetupEngine

namespace SetupEngine

/-! ## RFC-6901 pointers and the config mutation (`executor.ts`) -/

/-! Character-level implementations of the string operations the source
uses (`split('/')`, global two-character `replace`, `startsWith('/')`,
`trim`): they coincide with the library versions on these fixed arguments
and, being structurally recursive, evaluate inside the kernel. -/

def splitOnCharAux (c : Char) : List Char → List Char → List String
  | [], acc => [String.mk acc.reverse]
  | d :: rest, acc =>
      if d = c then String.mk acc.reverse :: splitOnCharAux c rest []
      else splitOnCharAux c rest (d :: acc)

/-- `s.split(sep)` for a single-character separator. -/
def splitOnChar (s : String) (c : Char) : List String :=
  splitOnCharAux c s.data []

/-- Global replacement of the two-character pattern `ab` by the character
`r`, continuing after each replacement — JS `.replace(/ab/g, r)`. -/
def replace2 (a b r : Char) : List Char → List Char
  | [] => []
  | [c] => [c]
  | c :: d :: rest =>
      if c = a ∧ d = b then r :: replace2 a b r rest
      else c :: replace2 a b r (d :: rest)

def startsWithSlash (p : String) : Bool :=
  match p.data with
  | c :: _ => c = '/'
  | [] => false

def isJsWhitespace (c : Char) : Bool :=
  c = ' ' ∨ c = '\t' ∨ c = '\n' ∨ c = '\r'

/-- `String.trim` over the common whitespace characters. -/
def strTrim (s : String) : String :=
  String.mk (((s.data.dropWhile isJsWhitespace).reverse.dropWhile
    isJsWhitespace).reverse)

/-- `decodePointer` from `executor.ts` (also duplicated in the config
analyzer): empty or `/` pointer is the document root; otherwise split on
`/`, drop the leading empty segment, and unescape `~1` then `~0`. -/
def decodePointer (pointer : String) : List String :=
  if pointer = "" ∨ pointer = "/" then []
  else ((splitOnChar pointer '/').drop 1).map
    (fun seg => String.mk (replace2 '~' '0' '~' (replace2 '~' '1' '/' seg.data)))

/-- One step of `getParent` with `createPath = true`: a missing, `null` or
non-object (`typeof !== 'object'`) intermediate is replaced by a fresh empty
object; objects and arrays pass through. -/
def coerceStep (v : Option Json) : Json :=
  match v with
  | none => .obj .nil
  | some .null => .obj .nil
  | some j => if j.isObjLike then j else .obj .nil

/-- Functional recast of `getParent(document, segments, true)` followed by a
caller mutation `f` of the parent: walk the intermediate segments, creating
empty objects where `getParent` would, apply `f` at the parent, and rebuild
the document along the walked spine (in the source the rebuild is implicit
in the in-place aliasing). `f` returns the `changed` flag and new parent. -/
def withParentCreate (doc : Json) : List String → (Json → Bool × Json) → Bool × Json
  | [], f => f doc
  | s :: rest, f =>
      let child := coerceStep (doc.getProp s)
      let r := withParentCreate child rest f
      (r.1, doc.setProp s r.2)

/-- Functional recast of `getParent(document, segments, false)` (used by
`unset`): a missing, `null` or non-object intermediate aborts the walk with
`changed = false` and the document untouched. -/
def withParentStrict (doc : Json) : List String → (Json → Bool × Json) → Bool × Json
  | [], f => f doc
  | s :: rest, f =>
      match doc.getProp s with
      | none => (false, doc)
      | some v =>
          if v = .null then (false, doc)
          else if !v.isObjLike then (false, doc)
          else
            let r := withParentStrict v rest f
            (r.1, doc.setProp s r.2)

inductive ConfigAction where
  | set | merge | unset
  deriving DecidableEq, Repr

inductive MergeStrategy where
  | shallow | deep | replace
  deriving DecidableEq, Repr

/-- JS object spread `{ ...target, ...source }`. -/
def spreadMerge : JsonObj → JsonObj → JsonObj
  | target, .nil => target
  | target, .cons k v tl => spreadMerge (target.setKey k v) tl

/-- `deepMerge` from `executor.ts`: start from a copy of the target and fold
the source entries in; when both sides hold plain (non-array, non-null)
objects at a key, recurse, otherwise the source value overwrites. -/
def deepMerge (target source : JsonObj) : JsonObj :=
  match source with
  | .nil => target
  | .cons k v tl =>
      let next :=
        match v, target.lookup k with
        | .obj vo, some (.obj ro) => target.setKey k (.obj (deepMerge ro vo))
        | _, _ => target.setKey k v
      deepMerge next tl
termination_by sizeOf source
decreasing_by
  all_goals simp only [JsonObj.cons.sizeOf_spec, Json.obj.sizeOf_spec]; omega

/-- `operation.strategy === 'shallow' ? { ...existing, ...value } :
deepMerge(existing, value)` — `deep`, `replace` and an absent strategy all
take the deep branch. -/
def mergeValues (strategy : Option MergeStrategy) (existing incoming : JsonObj) : JsonObj :=
  match strategy with
  | some .shallow => spreadMerge existing incoming
  | _ => deepMerge existing incoming

structure MutResult where
  changed : Bool
  document : Json
  deriving DecidableEq, Repr

/-- The parent-level action of `applyConfigMutation` for `set`/`merge`
(the `key === ''` guard from the source is folded in here because in the
source it fires only after the creating walk has already run). -/
def configParentAction (action : ConfigAction) (strategy : Option MergeStrategy)
    (key : String) (value : Json) (parent : Json) : Bool × Json :=
  if key = "" then (false, parent)
  else
    match action with
    | .set =>
        if isEqualOpt (parent.getProp key) value then (false, parent)
        else (true, parent.setProp key value)
    | .merge =>
        match parent.getProp key, value with
        | some (.obj existing), .obj incoming =>
            let merged := Json.obj (mergeValues strategy existing incoming)
            if isEqual (.obj existing) merged then (false, parent)
            else (true, parent.setProp key merged)
        | e?, v =>
            if isEqualOpt e? v then (false, parent)
            else (true, parent.setProp key v)
    | .unset => (false, parent)

/-- `applyConfigMutation` from `executor.ts`, over pre-decoded segments.
Root pointers (no segments) are no-ops; the duplicated assignment in the
source's merge branch is an artefact with no semantic content. -/
def applyConfigMutationSegs (document : Json) (action : ConfigAction)
    (segments : List String) (value : Json) (strategy : Option MergeStrategy) : MutResult :=
  match segments with
  | [] => ⟨false, document⟩
  | _ =>
    let inter := segments.dropLast
    let key := segments.getLast!
    match action with
    | .unset =>
        let r := withParentStrict document inter (fun parent =>
          if key = "" ∨ !parent.hasProp key then (false, parent)
          else (true, parent.delProp key))
        ⟨r.1, r.2⟩
    | a =>
        let r := withParentCreate document inter (configParentAction a strategy key value)
        ⟨r.1, r.2⟩

end SetupEngine

namespace SetupEngine

/-! ## Operations and metadata (`@kb-labs/setup-operations` types) -/

inductive FileAction where
  | ensure | update | delete
  deriving DecidableEq, Repr

structure FileOperation where
  action : FileAction
  path : String
  content : Option String := none
  mode : Option Nat := none
  checksum : Option String := none
  deriving DecidableEq, Repr

structure ConfigOperation where
  action : ConfigAction
  path : String
  pointer : String
  value : Json := .null
  strategy : Option MergeStrategy := none
  deriving DecidableEq, Repr

inductive ScriptConflictResolution where
  | keep | replace | prompt
  deriving DecidableEq, Repr

structure ScriptOperation where
  action : FileAction
  file : String
  name : String
  command : Option String := none
  conflictResolution : Option ScriptConflictResolution := none
  deriving DecidableEq, Repr

/-- The tagged operation union.  `code` operations exist in the type system
but are deliberately unimplemented by the core executor. -/
inductive Operation where
  | file (op : FileOperation)
  | config (op : ConfigOperation)
  | script (op : ScriptOperation)
  | code
  deriving DecidableEq, Repr

/-- Operation metadata.  `rawContent` carries the already base64-decoded
bytes of the `annotations.rawContentBase64` entry (base64 decoding is a
bijection on the byte level, so the model stores the decoded form). -/
structure OperationMetadata where
  id : String
  dependencies : List String := []
  rawContent : Option String := none
  deriving DecidableEq, Repr

structure OperationWithMetadata where
  operation : Operation
  metadata : OperationMetadata
  deriving DecidableEq, Repr

def Operation.isScript : Operation → Bool
  | .script _ => true
  | _ => false

/-! ## Association lists with JS `Map.set` semantics (update in place,
insert at the end — iteration order is first-insertion order, as for JS
`Map` and V8 objects) -/

def alGet [DecidableEq α] : List (α × β) → α → Option β
  | [], _ => none
  | (k, v) :: rest, key => if k = key then some v else alGet rest key

def alSet [DecidableEq α] : List (α × β) → α → β → List (α × β)
  | [], key, v => [(key, v)]
  | (k, w) :: rest, key, v =>
      if k = key then (k, v) :: rest else (k, w) :: alSet rest key v

def alRemove [DecidableEq α] : List (α × β) → α → List (α × β)
  | [], _ => []
  | kv :: rest, key =>
      if kv.1 = key then alRemove rest key else kv :: alRemove rest key

/-! ## Planner: `buildStages` (Kahn's algorithm with warnings) -/

structure PlanStage where
  id : String
  operations : List OperationWithMetadata
  parallel : Bool
  deriving DecidableEq, Repr

def opIds (ops : List OperationWithMetadata) : List String :=
  ops.map (·.metadata.id)

def missingDepWarning (opId dep : String) : String :=
  s!"Operation {opId} depends on missing operation {dep}. It will run anyway."

def cycleWarning : String :=
  "Detected dependency cycle. Remaining operations will execute sequentially in declared order."

/-- Accumulator of the warning/indegree/graph construction pass. -/
structure GraphAcc where
  warnings : List String := []
  indeg : List (String × Nat) := []
  graph : List (String × List String) := []

/-- One declared dependency of one operation: a dependency id absent from
the input yields a warning and is ignored for graph purposes; otherwise the
dependent's indegree is bumped and the (deduplicated) successor edge added. -/
def graphStepDep (ids : List String) (opId : String) (acc : GraphAcc)
    (dep : String) : GraphAcc :=
  if dep ∈ ids then
    { acc with
      indeg := alSet acc.indeg opId ((alGet acc.indeg opId).getD 0 + 1),
      graph :=
        let succs := (alGet acc.graph dep).getD []
        alSet acc.graph dep (if opId ∈ succs then succs else succs ++ [opId]) }
  else
    { acc with warnings := acc.warnings ++ [missingDepWarning opId dep] }

def graphStepOp (ids : List String) (acc : GraphAcc)
    (op : OperationWithMetadata) : GraphAcc :=
  op.metadata.dependencies.foldl (graphStepDep ids op.metadata.id) acc

/-- The warning/indegree/graph construction pass of `buildStages`. -/
def buildGraph (ops : List OperationWithMetadata) : GraphAcc :=
  let ids := opIds ops
  let indeg0 : List (String × Nat) :=
    ops.foldl (fun m op => alSet m op.metadata.id 0) []
  ops.foldl (graphStepOp ids) { indeg := indeg0 }

structure KahnSt where
  indeg : List (String × Nat)
  processed : List String
  deriving Repr

/-- One round of the Kahn loop: drain the queued ids in order, skipping
already-processed ones, collecting a stage's operations, decrementing the
indegree of successors and queueing those that reach zero.  The source never
decrements a zero indegree (each deduplicated edge fires exactly once), so
Nat subtraction agrees with the JS arithmetic on all reachable states. -/
def runRound (idMap : List (String × OperationWithMetadata))
    (graph : List (String × List String)) :
    List String → KahnSt → List OperationWithMetadata × List String × KahnSt
  | [], st => ([], [], st)
  | id :: rest, st =>
    if id ∈ st.processed then runRound idMap graph rest st
    else
      match alGet idMap id with
      | none => runRound idMap graph rest st
      | some op =>
        let neighbours := (alGet graph id).getD []
        let step := neighbours.foldl
          (fun (acc : List (String × Nat) × List String) nb =>
            let next := (alGet acc.1 nb).getD 0 - 1
            (alSet acc.1 nb next, if next = 0 then acc.2 ++ [nb] else acc.2))
          (st.indeg, [])
        let r := runRound idMap graph rest ⟨step.1, st.processed ++ [id]⟩
        (op :: r.1, step.2 ++ r.2.1, r.2.2)

/-- The `while (queue.length > 0)` loop of `buildStages`.  `fuel` bounds the
number of rounds; each round consumes at least one queued id and every id is
queued at most once, so `operations.length` rounds always suffice. -/
def kahnLoop (idMap : List (String × OperationWithMetadata))
    (graph : List (String × List String)) :
    Nat → List String → KahnSt → List PlanStage → List PlanStage × KahnSt
  | 0, _, st, stages => (stages, st)
  | _ + 1, [], st, stages => (stages, st)
  | fuel + 1, queue@(_ :: _), st, stages =>
    let r := runRound idMap graph queue st
    let stages' :=
      if r.1.length > 0 then
        stages ++ [{ id := s!"stage-{stages.length + 1}",
                     operations := r.1,
                     parallel := r.1.length > 1 }]
      else stages
    kahnLoop idMap graph fuel r.2.1 r.2.2 stages'

/-- One step of the dependency-cycle fallback: each not-yet-processed
operation is appended as its own single-operation stage, in declaration
order. -/
def cycleFallbackStep (acc : List PlanStage × List String)
    (op : OperationWithMetadata) : List PlanStage × List String :=
  if op.metadata.id ∈ acc.2 then acc
  else
    (acc.1 ++ [{ id := s!"stage-{acc.1.length + 1}",
                 operations := [op], parallel := false }],
     acc.2 ++ [op.metadata.id])

/-- `idToOperation`: a JS `Map` built from `(id, op)` pairs — later
duplicates overwrite the value but keep the first key position. -/
def stagesIdMap (operations : List OperationWithMetadata) :
    List (String × OperationWithMetadata) :=
  operations.foldl (fun m op => alSet m op.metadata.id op) []

/-- The initial Kahn queue: all ids of zero indegree, in map order. -/
def stagesQueue0 (bg : GraphAcc) : List String :=
  (bg.indeg.filter (fun kv => kv.2 = 0)).map (·.1)

/-- The post-processing of `buildStages` after the Kahn loop: if not every
operation was processed a dependency cycle exists — warn and append each
remaining operation as its own singleton stage in declaration order; if no
stage at all was produced for a non-empty input, emit a single degenerate
stage with every operation. -/
def stagesPost (operations : List OperationWithMetadata)
    (warnings : List String) (lk : List PlanStage × KahnSt) :
    List PlanStage × List String :=
  let stages := lk.1
  let processed := lk.2.processed
  let post :=
    if processed.length ≠ operations.length then
      let fallback := operations.foldl cycleFallbackStep (stages, processed)
      (fallback.1, warnings ++ [cycleWarning])
    else (stages, warnings)
  if post.1.length = 0 then
    ([{ id := "stage-1", operations := operations,
        parallel := operations.length > 1 }], post.2)
  else post

/-- `buildStages` from the planner: Kahn staging with missing-dependency
warnings, a cycle fallback appending remaining operations as singleton
stages in declaration order, and a degenerate fallback producing a single
stage.  Returns the stages and the accumulated warnings. -/
def buildStages (operations : List OperationWithMetadata) :
    List PlanStage × List String :=
  let bg := buildGraph operations
  stagesPost operations bg.warnings
    (kahnLoop (stagesIdMap operations) bg.graph operations.length
      (stagesQueue0 bg) ⟨bg.indeg, []⟩ [])

end SetupEngine

namespace SetupEngine

/-! ## Node's `isDeepStrictEqual` on JSON data -/

mutual

/-- `isDeepStrictEqual` restricted to JSON-representable values: primitives
by strict equality, arrays element-wise in order, objects by equal key sets
with recursively equal values (insertion order irrelevant). -/
def deepEq : Json → Json → Bool
  | .null, .null => true
  | .jbool a, .jbool b => a = b
  | .num a, .num b => a = b
  | .str a, .str b => a = b
  | .arr xs, .arr ys => deepEqArr xs ys
  | .obj fs, .obj gs => fs.length = gs.length && deepEqFields fs gs
  | _, _ => false

def deepEqArr : JsonArr → JsonArr → Bool
  | .nil, .nil => true
  | .cons x xs, .cons y ys => deepEq x y && deepEqArr xs ys
  | _, _ => false

/-- Every key of `fs` is present in `gs` with a deep-equal value; together
with the length check this is key-set equality for duplicate-free objects
(JS objects cannot carry duplicate keys). -/
def deepEqFields : JsonObj → JsonObj → Bool
  | .nil, _ => true
  | .cons k v tl, gs =>
      (match gs.lookup k with
       | some w => deepEq v w
       | none => false) && deepEqFields tl gs

end

/-- `isDeepStrictEqual(current, value)` where `current` may be `undefined`
(never equal to a defined value). -/
def deepEqOpt (a : Option Json) (b : Json) : Bool :=
  match a with
  | none => false
  | some x => deepEq x b

/-! ## Config analyzer (`ConfigAnalyzer` and helpers) -/

mutual

/-- `isDeepSubset(target, subset)` from the config analyzer.  An undefined
or `null` target matches nothing; an array or primitive subset requires deep
strict equality; an object subset requires every entry to be a recursive
deep subset of the target's entry (the target may be an object or an array,
both pass the JS `typeof === 'object'` test). -/
def isDeepSubset (target : Option Json) (subset : Json) : Bool :=
  match target with
  | none => false
  | some t =>
      if t = .null then false
      else
        match subset with
        | .arr _ => deepEq t subset
        | .obj sf => if t.isObjLike then isDeepSubsetFields t sf else false
        | p => deepEq t p

def isDeepSubsetFields (t : Json) : JsonObj → Bool
  | .nil => true
  | .cons k v tl => isDeepSubset (t.getProp k) v && isDeepSubsetFields t tl

end

/-- `getPointerValue`'s walk: abort with `undefined` as soon as the current
value is nullish or not object-like, otherwise read the next property. -/
def getPointerValueSegs : Option Json → List String → Option Json
  | cur, [] => cur
  | none, _ :: _ => none
  | some c, s :: rest =>
      if c.isObjLike then getPointerValueSegs (c.getProp s) rest else none

/-- `getPointerValue` from the config analyzer. -/
def getPointerValue (target : Json) (pointer : String) : Option Json :=
  getPointerValueSegs (some target) (decodePointer pointer)

inductive RiskLevel where
  | safe | moderate | high
  deriving DecidableEq, Repr

structure ConfigAnalysis where
  needed : Bool
  current : Option Json := none
  risk : RiskLevel
  notes : List String := []
  deriving DecidableEq, Repr

/-- `ConfigAnalyzer.evaluateDocument`: the per-action needed/risk decision
on an already-parsed document.  The guard on the merge branch is the JS
`value && typeof value === 'object' && !Array.isArray(value)` test, i.e.
`value` is a plain object. -/
def evaluateDocument (document : Json) (op : ConfigOperation) : ConfigAnalysis :=
  let currentValue := getPointerValue document op.pointer
  match op.action with
  | .unset =>
      let needed := currentValue.isSome
      { needed := needed, current := currentValue,
        risk := if needed then .moderate else .safe }
  | .set =>
      let equal := deepEqOpt currentValue op.value
      { needed := !equal, current := currentValue, risk := .safe }
  | .merge =>
      if op.value.isObj then
        let subset := isDeepSubset currentValue op.value
        { needed := !subset, current := currentValue, risk := .safe,
          notes := if subset then ["Config already matches desired merge payload."] else [] }
      else
        let equal := deepEqOpt currentValue op.value
        { needed := !equal, current := currentValue, risk := .safe }

/-! ## File analyzer (`FileAnalyzer.evaluateExistingFile`) -/

structure FileStat where
  size : Nat
  mode : Nat
  deriving DecidableEq, Repr

/-- The `current` record built for an existing file (the ISO `mtime` string
is recorded by the source but never consulted; it is omitted here). -/
structure FileCurrent where
  «exists» : Bool
  size : Option Nat := none
  mode : Option Nat := none
  content : Option String := none
  deriving DecidableEq, Repr

structure FileAnalysis where
  needed : Bool
  current : Option FileCurrent := none
  risk : RiskLevel
  notes : List String := []
  deriving DecidableEq, Repr

/-- `FileAnalyzer.evaluateExistingFile` for an existing target: content
equality plus (when declared) a `mode === stat.mode & 0o777` check decide
`needed = false`; with no inline content, a truthy checksum is compared
against the sha-256 of the read bytes; everything else is needed at
moderate risk.  (The template note of the fallback is outside the modelled
fragment.) -/
def evaluateExistingFile (hash : String → String) (stat : FileStat)
    (buffer : String) (op : FileOperation) : FileAnalysis :=
  let existingContent := buffer
  let current : FileCurrent :=
    { «exists» := true, size := some stat.size,
      mode := some (stat.mode &&& 0o777), content := some existingContent }
  let fallback : FileAnalysis :=
    { needed := true, current := some current, risk := .moderate }
  if op.action = .delete then
    { needed := true, current := some current, risk := .moderate }
  else
    match op.content with
    | some c =>
        if existingContent = c then
          let modeMatches : Bool :=
            match op.mode with
            | some m => m == (stat.mode &&& 0o777)
            | none => true
          if modeMatches then
            { needed := false, current := some current, risk := .safe,
              notes := ["File content matches desired state"] }
          else fallback
        else fallback
    | none =>
        match op.checksum with
        | some ck =>
            if ck = "" then fallback
            else if hash buffer = ck then
              { needed := false, current := some current, risk := .safe,
                notes := ["Checksum matches desired state"] }
            else fallback
        | none => fallback

/-! ## Journal snapshot reads (`readFileIfExists` in the change journal) -/

def DEFAULT_CAPTURE_BYTES : Nat := 256 * 1024

structure SnapshotRead where
  «exists» : Bool
  content : Option String := none
  checksum : Option String := none
  deriving DecidableEq, Repr

/-- `readFileIfExists` from the change journal: an absent file reads as
`exists = false`; otherwise the sha-256 checksum is taken over the full
bytes, and the recorded content is the decoded bytes unless their byte
length strictly exceeds `maxBytes`, in which case it is the
`<truncated N bytes>` placeholder.  (Reads in the model fail only with
ENOENT, so the `<error: …>` branch is unreachable.) -/
def readFileIfExists (hash : String → String) (bytes : Option String)
    (maxBytes : Nat) : SnapshotRead :=
  match bytes with
  | none => { «exists» := false }
  | some buffer =>
      let checksum := hash buffer
      if buffer.utf8ByteSize > maxBytes then
        { «exists» := true, checksum := some checksum,
          content := some s!"<truncated {buffer.utf8ByteSize} bytes>" }
      else
        { «exists» := true, checksum := some checksum, content := some buffer }

end SetupEngine

namespace SetupEngine

/-! ## Paths and the workspace filesystem -/

/-- A resolved absolute path, as a list of segments (segments contain no
separator, so list prefixing coincides with string prefixing by
`root + sep`). -/
abbrev Path := List String

/-- One step of POSIX path normalisation as `path.resolve` performs it. -/
def applyResolveSeg (stack : List String) (seg : String) : List String :=
  if seg = "" ∨ seg = "." then stack
  else if seg = ".." then stack.dropLast
  else stack ++ [seg]

/-- `path.resolve(base, p)` for an absolute, already-normalised `base`
(symlink-free semantics): an absolute `p` ignores the base, `.`/`..`/empty
segments normalise against the stack. -/
def pathResolve (base : Path) (p : String) : Path :=
  let parts := splitOnChar p '/'
  let start := if startsWithSlash p then [] else base
  parts.foldl applyResolveSeg start

/-- `resolveWorkspacePath` from `executor.ts`: the resolved path must equal
the workspace root or start with `root + sep`; on segment lists both cases
are exactly `root <+: resolved`. -/
def resolveWorkspacePath (workspaceRoot : Path) (filePath : String) :
    Except String Path :=
  let resolved := pathResolve workspaceRoot filePath
  if workspaceRoot.isPrefixOf resolved then .ok resolved
  else .error s!"Operation path {filePath} escapes workspace root."

/-- `sanitizeForFilename`: replace anything outside `[A-Za-z0-9._-]` by `_`. -/
def sanitizeForFilename (value : String) : String :=
  value.map (fun c =>
    if c.isAlphanum ∨ c = '.' ∨ c = '_' ∨ c = '-' then c else '_')

/-! ## JSON pretty printing (`JSON.stringify(v, null, 2)`), used for the
bytes of engine-written JSON files.  Control characters other than the
common escapes are outside the modelled byte domain. -/

def jsonEscapeChar (c : Char) : String :=
  if c = '"' then "\\\""
  else if c = '\\' then "\\\\"
  else if c = '\n' then "\\n"
  else if c = '\r' then "\\r"
  else if c = '\t' then "\\t"
  else String.singleton c

def jsonEscape (s : String) : String :=
  s.foldl (fun acc c => acc ++ jsonEscapeChar c) ""

def jsonQuote (s : String) : String := "\"" ++ jsonEscape s ++ "\""

mutual

def stringify (ind : String) : Json → String
  | .null => "null"
  | .jbool b => if b then "true" else "false"
  | .num n => toString n
  | .str s => jsonQuote s
  | .arr .nil => "[]"
  | .arr xs => "[\n" ++ stringifyArr (ind ++ "  ") xs ++ "\n" ++ ind ++ "]"
  | .obj .nil => "\x7b\x7d"
  | .obj fs => "\x7b\n" ++ stringifyObj (ind ++ "  ") fs ++ "\n" ++ ind ++ "\x7d"

def stringifyArr (ind : String) : JsonArr → String
  | .nil => ""
  | .cons x .nil => ind ++ stringify ind x
  | .cons x tl => ind ++ stringify ind x ++ ",\n" ++ stringifyArr ind tl

def stringifyObj (ind : String) : JsonObj → String
  | .nil => ""
  | .cons k v .nil => ind ++ jsonQuote k ++ ": " ++ stringify ind v
  | .cons k v tl =>
      ind ++ jsonQuote k ++ ": " ++ stringify ind v ++ ",\n" ++ stringifyObj ind tl

end

def stringifyPretty (j : Json) : String := stringify "" j

/-- On-disk content of a file: either raw bytes that are not an
engine-written JSON document, or a JSON document whose bytes are its
pretty rendering plus the trailing newline the executor appends. -/
inductive Content where
  | text (s : String)
  | jdoc (j : Json)
  deriving DecidableEq, Repr

def Content.bytes : Content → String
  | .text s => s
  | .jdoc j => stringifyPretty j ++ "\n"

/-- `JSON.parse` of a config file's bytes as `applyConfigOperation` performs
it (`raw.trim() ? JSON.parse(raw) : {}`): whitespace-only bytes give `{}`,
an engine-written document parses to itself, any other raw text is not a
parsable document in the model. -/
def parseConfigFile : Content → Except String Json
  | .jdoc j => .ok j
  | .text s => if strTrim s = "" then .ok (.obj .nil) else .error "Unexpected token in JSON"

/-- `JSON.parse` as `applyScriptOperation` performs it (no emptiness check:
`JSON.parse('')` throws). -/
def parseManifestFile : Content → Except String Json
  | .jdoc j => .ok j
  | .text _ => .error "Unexpected token in JSON"

structure FileEntry where
  data : Content
  mode : Nat
  deriving DecidableEq, Repr

/-- Mode bits a plain `writeFile` gives a newly created file. -/
def defaultFileMode : Nat := 0o644

/-- Write file bytes: overwriting keeps the inode's mode, creation uses the
default mode. -/
def fsWrite (fs : List (Path × FileEntry)) (p : Path) (c : Content) :
    List (Path × FileEntry) :=
  match alGet fs p with
  | some e => alSet fs p { e with data := c }
  | none => alSet fs p { data := c, mode := defaultFileMode }

def fsChmod (fs : List (Path × FileEntry)) (p : Path) (m : Nat) :
    List (Path × FileEntry) :=
  match alGet fs p with
  | some e => alSet fs p { e with mode := m }
  | none => fs

end SetupEngine

namespace SetupEngine

/-! ## Executor state and journal (`executor.ts`, change journal) -/

/-- One entry of the in-memory mutation log. -/
structure Mutation where
  targetPath : Path
  backupPath : Option Nat := none
  existedBefore : Bool
  deriving DecidableEq, Repr

structure OperationSnapshot where
  «exists» : Bool
  content : Option String := none
  checksum : Option String := none
  metadata : Option OperationMetadata := none
  deriving DecidableEq, Repr

structure JournalEntry where
  timestamp : Nat
  operation : OperationWithMetadata
  before : OperationSnapshot
  after : Option OperationSnapshot := none
  backupPath : Option Nat := none
  deriving DecidableEq, Repr

structure JournalState where
  entries : List JournalEntry := []
  entryIndex : List (String × Nat) := []
  logPath : Option Nat := none
  artifactBackups : List Nat := []
  artifactLogs : List Nat := []
  deriving DecidableEq, Repr

/-- The full mutable world of a run: the workspace filesystem, the backup
directory (keyed by the clock value at creation; the on-disk filename
`<unix-ms>-<sanitised-opId>-<sanitised-relPath>.bak` is derived injectively
from that key), written log files, the wall clock, and the per-run mutation
log, backup registry and optional journal. -/
structure ExecState where
  fs : List (Path × FileEntry) := []
  backups : List (Nat × Content) := []
  logs : List (Nat × List JournalEntry) := []
  clock : Nat := 0
  mutations : List Mutation := []
  backupRegistry : List Nat := []
  journal : Option JournalState := none
  deriving DecidableEq, Repr

structure ExecParams where
  workspaceRoot : Path
  autoConfirm : Bool := false
  dryRun : Bool := false
  hash : String → String
  maxCaptureBytes : Nat := DEFAULT_CAPTURE_BYTES

/-- `resolvePath` in the change journal (`path.resolve`, with no
workspace-escape check). -/
def snapshotTargetPath? (root : Path) : Operation → Option Path
  | .file o => some (pathResolve root o.path)
  | .config o => some (pathResolve root o.path)
  | .script o => some (pathResolve root o.file)
  | .code => none

/-- `captureSnapshot` from the change journal: read the operation's target
file if the kind has one, recording existence, (possibly truncated) content
and full-bytes checksum, plus the operation metadata. -/
def captureSnapshot (ρ : ExecParams) (fs : List (Path × FileEntry))
    (op : OperationWithMetadata) : OperationSnapshot :=
  match snapshotTargetPath? ρ.workspaceRoot op.operation with
  | none => { «exists» := false, metadata := some op.metadata }
  | some target =>
      let r := readFileIfExists ρ.hash ((alGet fs target).map (·.data.bytes))
        ρ.maxCaptureBytes
      { «exists» := r.«exists», content := r.content, checksum := r.checksum,
        metadata := some op.metadata }

/-- `journal.beforeOperation`: append an entry with the before snapshot and
point the id index at it. -/
def journalBefore (ρ : ExecParams) (op : OperationWithMetadata)
    (st : ExecState) : ExecState :=
  match st.journal with
  | none => st
  | some j =>
      let entry : JournalEntry :=
        { timestamp := st.clock, operation := op,
          before := captureSnapshot ρ st.fs op }
      let j' := { j with entries := j.entries ++ [entry],
                          entryIndex := alSet j.entryIndex op.metadata.id j.entries.length }
      { st with journal := some j' }

/-- `journal.afterOperation`: find the entry the index points at, record the
after snapshot, and when the applier reported a backup path, record it and
push it onto the artifacts. -/
def journalAfter (ρ : ExecParams) (op : OperationWithMetadata)
    (backupPath : Option Nat) (st : ExecState) : ExecState :=
  match st.journal with
  | none => st
  | some j =>
      match alGet j.entryIndex op.metadata.id with
      | none => st
      | some idx =>
          match j.entries.get? idx with
          | none => st
          | some entry =>
              let entry' :=
                { entry with
                  after := some (captureSnapshot ρ st.fs op),
                  backupPath := match backupPath with
                    | some b => some b
                    | none => entry.backupPath }
              let j' := { j with entries := j.entries.set idx entry',
                                  artifactBackups := match backupPath with
                                    | some b => j.artifactBackups ++ [b]
                                    | none => j.artifactBackups }
              { st with journal := some j' }

/-- `persistJournal`: on a journal with entries, write them as a log file
into the backup directory under a fresh `<unix-ms>-setup-log.json` name
(unless a log path is already set, which is then overwritten) and record
the path in the journal. -/
def persistJournal (st : ExecState) : ExecState :=
  match st.journal with
  | none => st
  | some j =>
      if j.entries.length = 0 then st
      else
        let fresh := j.logPath.isNone
        let logKey := j.logPath.getD st.clock
        { st with
          clock := if fresh then st.clock + 1 else st.clock,
          logs := alSet st.logs logKey j.entries,
          journal := some { j with logPath := some logKey,
                                   artifactLogs := [logKey] } }

/-! ## The appliers (`executor.ts`) -/

/-- Content resolution for file operations: inline `content` first, then the
decoded `rawContentBase64` annotation; the template fallback is outside the
modelled fragment, so its absence is the terminal error of the source. -/
def resolveFileContent (op : FileOperation) (meta : OperationMetadata) :
    Except String String :=
  match op.content with
  | some c => .ok c
  | none =>
      match meta.rawContent with
      | some b => .ok b
      | none => .error
          s!"File operation for {op.path} does not include content or template information."

/-- `createBackupIfNeeded`: re-check existence; an existing target's bytes
are copied to a fresh backup key (the clock), which is also pushed onto the
run's backup registry. -/
def createBackupIfNeeded (targetPath : Path) (st : ExecState) :
    Option Nat × ExecState :=
  match alGet st.fs targetPath with
  | none => (none, st)
  | some e =>
      let key := st.clock
      (some key,
       { st with backups := st.backups ++ [(key, e.data)],
                 clock := st.clock + 1,
                 backupRegistry := st.backupRegistry ++ [key] })

def recordMutation (st : ExecState) (targetPath : Path)
    (backupPath : Option Nat) (created : Bool) : ExecState :=
  { st with mutations := st.mutations ++
      [{ targetPath := targetPath, backupPath := backupPath,
         existedBefore := !created }] }

/-- `applyFileOperation`.  Note the source passes `created = true` to
`recordMutation` on the delete branch (so `existedBefore` is recorded as
`false` there even though the file existed; rollback is unaffected because
the backup path is set). -/
def applyFileOperation (ρ : ExecParams) (op : FileOperation)
    (meta : OperationMetadata) (st : ExecState) :
    Except String (Bool × Option Nat × ExecState) :=
  match resolveWorkspacePath ρ.workspaceRoot op.path with
  | .error e => .error e
  | .ok targetPath =>
    if op.action = .delete then
      match alGet st.fs targetPath with
      | none => .ok (false, none, st)
      | some _ =>
          let bk := createBackupIfNeeded targetPath st
          let st1 := { bk.2 with fs := alRemove bk.2.fs targetPath }
          .ok (true, bk.1, recordMutation st1 targetPath bk.1 true)
    else
      match resolveFileContent op meta with
      | .error e => .error e
      | .ok nextContent =>
        match alGet st.fs targetPath with
        | some e =>
            if e.data.bytes = nextContent then .ok (false, none, st)
            else
              let bk := createBackupIfNeeded targetPath st
              let st1 := { bk.2 with
                fs := fsWrite bk.2.fs targetPath (.text nextContent) }
              let st2 := match op.mode with
                | some m => { st1 with fs := fsChmod st1.fs targetPath m }
                | none => st1
              .ok (true, bk.1, recordMutation st2 targetPath bk.1 false)
        | none =>
            let st1 := { st with
              fs := fsWrite st.fs targetPath (.text nextContent) }
            let st2 := match op.mode with
              | some m => { st1 with fs := fsChmod st1.fs targetPath m }
              | none => st1
            .ok (true, none, recordMutation st2 targetPath none true)

/-- `applyConfigOperation`: parse the target (absent → `{}`), run the
mutation, and only on `changed` back up (if the file existed), write the
pretty-printed document and record the mutation. -/
def applyConfigOperation (ρ : ExecParams) (op : ConfigOperation)
    (st : ExecState) : Except String (Bool × Option Nat × ExecState) :=
  match resolveWorkspacePath ρ.workspaceRoot op.path with
  | .error e => .error e
  | .ok targetPath =>
    let ex := (alGet st.fs targetPath).isSome
    match (match alGet st.fs targetPath with
           | none => Except.ok (Json.obj .nil)
           | some e => parseConfigFile e.data) with
    | .error e => .error e
    | .ok document =>
      let updated := applyConfigMutationSegs document op.action
        (decodePointer op.pointer) op.value op.strategy
      if !updated.changed then .ok (false, none, st)
      else
        let bk := if ex then createBackupIfNeeded targetPath st else (none, st)
        let st1 := { bk.2 with
          fs := fsWrite bk.2.fs targetPath (.jdoc updated.document) }
        .ok (true, bk.1, recordMutation st1 targetPath bk.1 (!ex))

/-- `pkg.scripts = pkg.scripts ?? {}`: a missing or `null` scripts field is
replaced by an empty object. -/
def scriptsOf (pkg0 : Json) : Json :=
  match pkg0.getProp "scripts" with
  | none => Json.obj .nil
  | some .null => Json.obj .nil
  | some v => v

/-- The manifest write-back every completing script branch performs: back up
an existing manifest, write the new pretty-printed document, record the
mutation, and report `changed: true` unconditionally. -/
def writeManifest (st : ExecState) (targetPath : Path) (ex : Bool)
    (pkg' : Json) : Bool × Option Nat × ExecState :=
  let bk := if ex then createBackupIfNeeded targetPath st else (none, st)
  let st1 := { bk.2 with fs := fsWrite bk.2.fs targetPath (.jdoc pkg') }
  (true, bk.1, recordMutation st1 targetPath bk.1 (!ex))

/-- `applyScriptOperation`.  The manifest is parsed (absent → `{}`),
`pkg.scripts` is defaulted, the named entry handled per action and conflict
resolution — and on every path that reaches the end the manifest is written
back and `changed: true` reported, whether or not the bytes changed. -/
def applyScriptOperation (ρ : ExecParams) (op : ScriptOperation)
    (st : ExecState) : Except String (Bool × Option Nat × ExecState) :=
  match resolveWorkspacePath ρ.workspaceRoot op.file with
  | .error e => .error e
  | .ok targetPath =>
    let ex := (alGet st.fs targetPath).isSome
    match (match alGet st.fs targetPath with
           | none => Except.ok (Json.obj .nil)
           | some e => parseManifestFile e.data) with
    | .error e => .error e
    | .ok pkg0 =>
      let scripts := scriptsOf pkg0
      let pkg := pkg0.setProp "scripts" scripts
      let current := scripts.getProp op.name
      if op.action = .delete then
        match current with
        | none => .ok (false, none, st)
        | some _ => .ok (writeManifest st targetPath ex
            (pkg.setProp "scripts" (scripts.delProp op.name)))
      else
        let nextCommand := op.command.getD ""
        let conflict : Bool := match current with
          | some c => c != Json.str nextCommand
          | none => false
        if conflict then
          let resolution := op.conflictResolution.getD .prompt
          if resolution = .keep then .ok (false, none, st)
          else if resolution = .prompt ∧ !ρ.autoConfirm then
            .error s!"Script \"{op.name}\" already exists in {op.file}. Re-run with --yes to overwrite."
          else .ok (writeManifest st targetPath ex (pkg.setProp "scripts"
            (scripts.setProp op.name (.str nextCommand))))
        else .ok (writeManifest st targetPath ex (pkg.setProp "scripts"
          (scripts.setProp op.name (.str nextCommand))))

/-- `applyOperation` (no registry overrides in the modelled configuration):
dispatch on the kind; `code` and unknown kinds fail as unsupported. -/
def applyOperation (ρ : ExecParams) (op : OperationWithMetadata)
    (st : ExecState) : Except String (Bool × Option Nat × ExecState) :=
  match op.operation with
  | .file o => applyFileOperation ρ o op.metadata st
  | .config o => applyConfigOperation ρ o st
  | .script o => applyScriptOperation ρ o st
  | .code => .error "Unsupported operation kind \"code\"."

/-- `simulateOperation` under dry-run: file operations resolve their content
without touching disk, config and script operations are no-ops, other kinds
are unsupported. -/
def simulateOperation (op : OperationWithMetadata) : Except String Unit :=
  match op.operation with
  | .file o => (resolveFileContent o op.metadata).map (fun _ => ())
  | .config _ => .ok ()
  | .script _ => .ok ()
  | .code => .error "Operation kind \"code\" is not supported in executor."

/-! ## Rollback and the run loop -/

/-- One reverse-walk step of `rollbackMutations`: a recorded backup is
copied back over the target; otherwise a mutation that created its target
removes it.  (A recorded backup key always exists in the backup store; the
impossible miss is a no-op.) -/
def rollbackStep (backups : List (Nat × Content))
    (fs : List (Path × FileEntry)) (m : Mutation) : List (Path × FileEntry) :=
  match m.backupPath with
  | some b =>
      match alGet backups b with
      | some content => fsWrite fs m.targetPath content
      | none => fs
  | none => if !m.existedBefore then alRemove fs m.targetPath else fs

/-- `rollbackMutations`: walk the mutation log in reverse. -/
def rollbackFs (muts : List Mutation) (backups : List (Nat × Content))
    (fs : List (Path × FileEntry)) : List (Path × FileEntry) :=
  muts.reverse.foldl (rollbackStep backups) fs

def rollbackMutations (st : ExecState) : ExecState :=
  { st with fs := rollbackFs st.mutations st.backups st.fs }

structure FailedOperation where
  operation : OperationWithMetadata
  error : String
  deriving DecidableEq, Repr

structure ExecutionResult where
  success : Bool
  applied : List OperationWithMetadata
  failed : List FailedOperation := []
  rollbackAvailable : Bool
  logPath : Option Nat := none
  artifactBackups : List Nat := []
  artifactLogs : List Nat := []
  deriving DecidableEq, Repr

def journalLogs (st : ExecState) : List Nat :=
  match st.journal with
  | some j => j.artifactLogs
  | none => []

def journalLogPath (st : ExecState) : Option Nat :=
  match st.journal with
  | some j => j.logPath
  | none => none

/-- The per-operation loop of `execute` over the flattened operation
sequence.  Dry runs simulate, then journal before/after; real runs journal
before, apply, collect `changed` operations into `applied`, journal after
with the applier's backup path.  The first error aborts: on a real run the
mutation log is rolled back (the journal's `rollback` hook is a no-op); the
result carries the partial `applied` list. -/
def execOps (ρ : ExecParams) :
    List OperationWithMetadata → List OperationWithMetadata → ExecState →
    ExecutionResult × ExecState
  | [], applied, st =>
      let st := persistJournal st
      ({ success := true, applied := applied,
         rollbackAvailable := !ρ.dryRun,
         logPath := journalLogPath st,
         artifactBackups := st.backupRegistry,
         artifactLogs := journalLogs st }, st)
  | op :: rest, applied, st =>
      if ρ.dryRun then
        match simulateOperation op with
        | .ok _ =>
            let st := journalBefore ρ op st
            let st := journalAfter ρ op none st
            execOps ρ rest applied st
        | .error e =>
            ({ success := false, applied := applied,
               failed := [{ operation := op, error := e }],
               rollbackAvailable := false,
               logPath := journalLogPath st,
               artifactBackups := st.backupRegistry,
               artifactLogs := journalLogs st }, st)
      else
        let st := journalBefore ρ op st
        match applyOperation ρ op st with
        | .ok (changed, bp, st') =>
            let applied' := if changed then applied ++ [op] else applied
            let st'' := journalAfter ρ op bp st'
            execOps ρ rest applied' st''
        | .error e =>
            let stR := rollbackMutations st
            ({ success := false, applied := applied,
               failed := [{ operation := op, error := e }],
               rollbackAvailable := true,
               logPath := journalLogPath stR,
               artifactBackups := stR.backupRegistry,
               artifactLogs := journalLogs stR }, stR)

/-- `execute`: the modelled journal's `startStage`/`commitStage` hooks are
no-ops and progress events are pure notifications, so a plan executes as
the concatenation of its stages' operation lists; the per-run mutation log
and backup registry start empty.  `persistJournal` runs only after all
operations succeed (guarded by `if (journal)` in the source, which the
model folds into `persistJournal` itself). -/
def execute (ρ : ExecParams) (plan : List PlanStage) (st : ExecState) :
    ExecutionResult × ExecState :=
  execOps ρ (plan.flatMap (·.operations)) []
    { st with mutations := [], backupRegistry := [] }

end SetupEngine

namespace SetupEngine

/-! ## Groundwork lemmas on the association-list primitives -/

theorem alGet_alSet_self [DecidableEq α] (l : List (α × β)) (k : α) (v : β) :
    alGet (alSet l k v) k = some v := by
  induction l with
  | nil => simp [alGet, alSet]
  | cons kv rest ih =>
      obtain ⟨k1, v1⟩ := kv
      by_cases h : k1 = k
      · subst h; simp [alGet, alSet]
      · simp [alGet, alSet, h, ih]

theorem alGet_alSet_ne [DecidableEq α] (l : List (α × β)) (k q : α) (v : β)
    (h : q ≠ k) : alGet (alSet l k v) q = alGet l q := by
  have h' : k ≠ q := Ne.symm h
  induction l with
  | nil => simp [alGet, alSet, h']
  | cons kv rest ih =>
      obtain ⟨k1, v1⟩ := kv
      by_cases hk : k1 = k
      · subst hk; simp [alGet, alSet, h']
      · by_cases hq : k1 = q
        · subst hq; simp [alGet, alSet, hk]
        · simp [alGet, alSet, hk, hq, ih]

theorem alGet_alRemove_self [DecidableEq α] (l : List (α × β)) (k : α) :
    alGet (alRemove l k) k = none := by
  induction l with
  | nil => simp [alGet, alRemove]
  | cons kv rest ih =>
      obtain ⟨k1, v1⟩ := kv
      by_cases h : k1 = k
      · simp [alRemove, h, ih]
      · simp [alGet, alRemove, h, ih]

theorem alGet_alRemove_ne [DecidableEq α] (l : List (α × β)) (k q : α)
    (h : q ≠ k) : alGet (alRemove l k) q = alGet l q := by
  induction l with
  | nil => simp [alGet, alRemove]
  | cons kv rest ih =>
      obtain ⟨k1, v1⟩ := kv
      by_cases hk : k1 = k
      · subst hk
        have h' : k1 ≠ q := Ne.symm h
        simp [alGet, alRemove, h', ih]
      · by_cases hq : k1 = q
        · subst hq; simp [alGet, alRemove, hk]
        · simp [alGet, alRemove, hk, hq, ih]

theorem alSet_same [DecidableEq α] (l : List (α × β)) (k : α) (v : β)
    (h : alGet l k = some v) : alSet l k v = l := by
  induction l with
  | nil => simp [alGet] at h
  | cons kv rest ih =>
      obtain ⟨k1, v1⟩ := kv
      by_cases hk : k1 = k
      · subst hk
        simp [alGet] at h
        simp [alSet, h]
      · simp only [alGet, if_neg hk] at h
        simp [alSet, hk, ih h]

theorem alGet_append [DecidableEq α] (l₁ l₂ : List (α × β)) (k : α) :
    alGet (l₁ ++ l₂) k =
      (match alGet l₁ k with
       | some v => some v
       | none => alGet l₂ k) := by
  induction l₁ with
  | nil => simp [alGet]
  | cons kv rest ih =>
      obtain ⟨k1, v1⟩ := kv
      by_cases h : k1 = k
      · simp [alGet, h]
      · simp [alGet, h, ih]

theorem alGet_mem [DecidableEq α] {l : List (α × β)} {k : α} {v : β}
    (h : alGet l k = some v) : (k, v) ∈ l := by
  induction l with
  | nil => simp [alGet] at h
  | cons kv rest ih =>
      obtain ⟨k1, v1⟩ := kv
      by_cases hk : k1 = k
      · subst hk
        simp [alGet] at h
        subst h
        exact List.mem_cons_self _ _
      · simp only [alGet, if_neg hk] at h
        exact List.mem_cons_of_mem _ (ih h)

end SetupEngine

namespace SetupEngine

/-- C7: Journal snapshot truncation — the default byte cap is 256 KiB; for
every snapshot of a file whose byte length strictly exceeds the cap, the
recorded content is exactly the placeholder `<truncated N bytes>` with `N`
the full byte length while the recorded checksum is computed over the full,
untruncated bytes; files at or below the cap record their content
verbatim (with the same full-bytes checksum). -/
theorem c7_snapshot_truncation (hash : String → String) (bytes : String)
    (maxBytes : Nat) :
    DEFAULT_CAPTURE_BYTES = 256 * 1024 ∧
    (bytes.utf8ByteSize > maxBytes →
      readFileIfExists hash (some bytes) maxBytes =
        { «exists» := true, checksum := some (hash bytes),
          content := some s!"<truncated {bytes.utf8ByteSize} bytes>" }) ∧
    (bytes.utf8ByteSize ≤ maxBytes →
      readFileIfExists hash (some bytes) maxBytes =
        { «exists» := true, checksum := some (hash bytes),
          content := some bytes }) := by
  refine ⟨rfl, fun h => ?_, fun h => ?_⟩
  · simp [readFileIfExists, h]
  · simp [readFileIfExists, Nat.not_lt.mpr h]

theorem c7_snapshot_truncation_witness :
    ("abcd".utf8ByteSize > 3 ∧
      readFileIfExists id (some "abcd") 3 =
        { «exists» := true, checksum := some (id "abcd"),
          content := some s!"<truncated {4} bytes>" }) ∧
    ("abcd".utf8ByteSize ≤ 4 ∧
      readFileIfExists id (some "abcd") 4 =
        { «exists» := true, checksum := some (id "abcd"),
          content := some "abcd" }) :=
  ⟨⟨by decide, (c7_snapshot_truncation id "abcd" 3).2.1 (by decide)⟩,
   ⟨by decide, (c7_snapshot_truncation id "abcd" 4).2.2 (by decide)⟩⟩

/-- C6: Config merge analysis — for a `merge` operation whose value is a
plain (non-array, non-null) object, the analyzer reports `needed = true`
iff the value is not a deep subset of the current value at the pointer;
for any other value, merge analysis is equivalent to `set` (needed iff not
deep-strict-equal to the current value). -/
theorem c6_config_merge_analysis (document : Json) (op : ConfigOperation)
    (hmerge : op.action = .merge) :
    (op.value.isObj = true →
      (evaluateDocument document op).needed
        = !isDeepSubset (getPointerValue document op.pointer) op.value) ∧
    (op.value.isObj = false →
      (evaluateDocument document op).needed
        = !deepEqOpt (getPointerValue document op.pointer) op.value ∧
      (evaluateDocument document op).needed
        = (evaluateDocument document { op with action := .set }).needed) := by
  constructor
  · intro hobj
    simp [evaluateDocument, hmerge, hobj]
  · intro hobj
    simp [evaluateDocument, hmerge, hobj]

theorem c6_config_merge_analysis_witness :
    let doc : Json := .obj (.cons "plugins"
      (.obj (.cons "demo" (.obj (.cons "enabled" (.jbool true)
        (.cons "level" (.str "strict") .nil))) .nil)) .nil)
    let op : ConfigOperation :=
      { action := .merge, path := ".kb/kb-labs.config.json",
        pointer := "/plugins/demo",
        value := .obj (.cons "enabled" (.jbool true) .nil) }
    (op.value.isObj = true →
      (evaluateDocument doc op).needed
        = !isDeepSubset (getPointerValue doc op.pointer) op.value) ∧
    (op.value.isObj = false →
      (evaluateDocument doc op).needed
        = !deepEqOpt (getPointerValue doc op.pointer) op.value ∧
      (evaluateDocument doc op).needed
        = (evaluateDocument doc { op with action := .set }).needed) :=
  c6_config_merge_analysis _ _ rfl

end SetupEngine

namespace SetupEngine

/-- Reduction of an `Except` bind on a known `ok` (the do-notation of the
appliers elaborates to these binds). -/
theorem exceptBind_ok (a : α) (f : α → Except ε β) :
    (Except.ok a : Except ε α) >>= f = f a := rfl

theorem exceptMap_ok (a : α) (f : α → β) :
    (f <$> (Except.ok a : Except ε α)) = Except.ok (f a) := rfl

theorem exceptPure (a : α) : (pure a : Except ε α) = Except.ok a := rfl

/-- C9: for a file `ensure`/`update` operation whose target exists with
bytes equal to the resolved (inline) content, the applier returns
`changed = false` before the chmod step and leaves the state — in
particular the file's permission mode — completely unchanged, even when
`operation.mode` is set and differs from the on-disk mode; yet the analyzer
marks exactly such an operation (content equal, mode mismatched) as
`needed = true`. -/
theorem c9_mode_not_reapplied
    (ρ : ExecParams) (op : FileOperation) (meta : OperationMetadata)
    (st : ExecState) (target : Path) (e : FileEntry) (c : String)
    (hash : String → String) (stat : FileStat) (m : Nat)
    (hres : resolveWorkspacePath ρ.workspaceRoot op.path = .ok target)
    (hact : op.action ≠ .delete)
    (hget : alGet st.fs target = some e)
    (hopc : op.content = some c)
    (heq : e.data.bytes = c)
    (hmode : op.mode = some m)
    (hmm : m ≠ stat.mode &&& 0o777) :
    applyFileOperation ρ op meta st = .ok (false, none, st) ∧
    (evaluateExistingFile hash stat c op).needed = true := by
  constructor
  · simp [applyFileOperation, hres, hact, resolveFileContent, hopc, hget, heq,
      exceptBind_ok, exceptPure]
  · simp [evaluateExistingFile, hact, hopc, hmode, hmm]

theorem c9_mode_not_reapplied_witness :
    let ρ : ExecParams := { workspaceRoot := ["ws"], hash := id }
    let op : FileOperation :=
      { action := .ensure, path := "a.txt", content := some "x",
        mode := some 0o755 }
    let e : FileEntry := { data := .text "x", mode := 0o644 }
    let st : ExecState := { fs := [(["ws", "a.txt"], e)] }
    applyFileOperation ρ op { id := "file-1" } st = .ok (false, none, st) ∧
    (evaluateExistingFile id { size := 1, mode := 0o644 } "x" op).needed = true :=
  c9_mode_not_reapplied { workspaceRoot := ["ws"], hash := id }
    { action := .ensure, path := "a.txt", content := some "x", mode := some 0o755 }
    { id := "file-1" }
    { fs := [(["ws", "a.txt"], { data := .text "x", mode := 0o644 })] }
    ["ws", "a.txt"] { data := .text "x", mode := 0o644 } "x" id
    { size := 1, mode := 0o644 } 0o755
    rfl (by decide) rfl rfl rfl rfl (by decide)

end SetupEngine

namespace SetupEngine

theorem getLast!_cons_cons [Inhabited α] (a b : α) (l : List α) :
    (a :: b :: l).getLast! = (b :: l).getLast! := by
  simp only [List.getLast!_cons, List.getLastD_cons]

/-- C8: for a config `set`/`merge` operation whose pointer has two or more
segments, an intermediate value along the pointer path that is missing,
`null`, or not an object (in the JS sense — arrays pass the `typeof` test)
is silently replaced by a fresh empty object before the write, discarding
the previous value at that position: the mutation proceeds exactly as if
that position held `{}`, and the old value is overwritten by the rebuilt
subtree.  For `unset`, the strict walk refuses to create the path and
reports `changed = false` with the document untouched. -/
theorem c8_intermediate_coercion
    (doc : Json) (s1 r : String) (rs : List String)
    (value : Json) (strategy : Option MergeStrategy) (act : ConfigAction)
    (hobj : doc.isObj = true)
    (hbroken : ∀ v, doc.getProp s1 = some v → v.isObjLike = false)
    (hact : act ≠ .unset) :
    (applyConfigMutationSegs doc act (s1 :: r :: rs) value strategy
       = ⟨(applyConfigMutationSegs (.obj .nil) act (r :: rs) value strategy).changed,
          doc.setProp s1
            (applyConfigMutationSegs (.obj .nil) act (r :: rs) value strategy).document⟩) ∧
    applyConfigMutationSegs doc .unset (s1 :: r :: rs) value strategy
       = ⟨false, doc⟩ := by
  have hco : coerceStep (doc.getProp s1) = .obj .nil := by
    cases h : doc.getProp s1 with
    | none => rfl
    | some v =>
        have hv := hbroken v h
        cases v <;> simp_all [coerceStep, Json.isObjLike]
  constructor
  · cases act with
    | unset => exact absurd rfl hact
    | set =>
        simp [applyConfigMutationSegs, withParentCreate, hco,
          getLast!_cons_cons]
    | merge =>
        simp [applyConfigMutationSegs, withParentCreate, hco,
          getLast!_cons_cons]
  · cases h : doc.getProp s1 with
    | none => simp [applyConfigMutationSegs, withParentStrict, h]
    | some v =>
        have hv := hbroken v h
        cases v <;> simp_all [applyConfigMutationSegs, withParentStrict,
          Json.isObjLike]

theorem c8_intermediate_coercion_witness :
    let doc : Json := .obj (.cons "a" (.num 5) .nil)
    (applyConfigMutationSegs doc .set ["a", "b"] (.num 1) none
       = ⟨(applyConfigMutationSegs (.obj .nil) .set ["b"] (.num 1) none).changed,
          doc.setProp "a"
            (applyConfigMutationSegs (.obj .nil) .set ["b"] (.num 1) none).document⟩) ∧
    applyConfigMutationSegs doc .unset ["a", "b"] (.num 1) none
       = ⟨false, doc⟩ :=
  c8_intermediate_coercion (.obj (.cons "a" (.num 5) .nil)) "a" "b" []
    (.num 1) none .set rfl (by decide) (by decide)

end SetupEngine

namespace SetupEngine

/-! ## Planner lemmas for the missing-dependency behaviour -/

theorem graphStepDep_warn_mem (ids : List String) (i : String) (acc : GraphAcc)
    (dep : String) {x : String} (hx : x ∈ acc.warnings) :
    x ∈ (graphStepDep ids i acc dep).warnings := by
  unfold graphStepDep
  split
  · exact hx
  · exact List.mem_append_left _ hx

theorem depsFold_warn_mem (ids : List String) (i : String)
    (deps : List String) (acc : GraphAcc) {x : String}
    (hx : x ∈ acc.warnings) :
    x ∈ (deps.foldl (graphStepDep ids i) acc).warnings := by
  induction deps generalizing acc with
  | nil => exact hx
  | cons dep rest ih =>
      exact ih _ (graphStepDep_warn_mem ids i acc dep hx)

theorem depsFold_warn_present (ids : List String) (i : String)
    (deps : List String) (acc : GraphAcc) {d : String}
    (hd : d ∈ deps) (hmiss : d ∉ ids) :
    missingDepWarning i d ∈ (deps.foldl (graphStepDep ids i) acc).warnings := by
  induction deps generalizing acc with
  | nil => cases hd
  | cons dep rest ih =>
      rcases List.mem_cons.mp hd with h | h
      · subst h
        refine depsFold_warn_mem ids i rest _ ?_
        simp [graphStepDep, hmiss]
      · exact ih _ h

theorem opsFold_warn_mem (ids : List String)
    (ops : List OperationWithMetadata) (acc : GraphAcc) {x : String}
    (hx : x ∈ acc.warnings) :
    x ∈ (ops.foldl (graphStepOp ids) acc).warnings := by
  induction ops generalizing acc with
  | nil => exact hx
  | cons op rest ih =>
      exact ih _ (depsFold_warn_mem ids op.metadata.id op.metadata.dependencies acc hx)

theorem opsFold_warn_present (ids : List String)
    (ops : List OperationWithMetadata) (acc : GraphAcc)
    {o : OperationWithMetadata} {d : String}
    (ho : o ∈ ops) (hd : d ∈ o.metadata.dependencies) (hmiss : d ∉ ids) :
    missingDepWarning o.metadata.id d ∈ (ops.foldl (graphStepOp ids) acc).warnings := by
  induction ops generalizing acc with
  | nil => cases ho
  | cons op rest ih =>
      rcases List.mem_cons.mp ho with h | h
      · subst h
        exact opsFold_warn_mem ids rest _
          (depsFold_warn_present ids o.metadata.id o.metadata.dependencies acc hd hmiss)
      · exact ih _ h

theorem buildGraph_warn_present (ops : List OperationWithMetadata)
    {o : OperationWithMetadata} {d : String}
    (ho : o ∈ ops) (hd : d ∈ o.metadata.dependencies) (hmiss : d ∉ opIds ops) :
    missingDepWarning o.metadata.id d ∈ (buildGraph ops).warnings :=
  opsFold_warn_present (opIds ops) ops _ ho hd hmiss

theorem graphStepDep_indeg_skip (ids : List String) (i : String)
    (acc : GraphAcc) {dep : String} (h : dep ∉ ids) :
    (graphStepDep ids i acc dep).indeg = acc.indeg := by
  simp [graphStepDep, h]


theorem depsFold_indeg_skip (ids : List String) (i : String)
    (deps : List String) (acc : GraphAcc)
    (h : ∀ d ∈ deps, d ∉ ids) :
    (deps.foldl (graphStepDep ids i) acc).indeg = acc.indeg := by
  induction deps generalizing acc with
  | nil => rfl
  | cons dep rest ih =>
      rw [List.foldl_cons, ih _ (fun d hd => h d (List.mem_cons_of_mem _ hd)),
        graphStepDep_indeg_skip ids i acc (h dep (List.mem_cons_self _ _))]

theorem graphStepDep_indeg_other (ids : List String) (i : String)
    (acc : GraphAcc) (dep : String) {k : String} (hk : k ≠ i) :
    alGet (graphStepDep ids i acc dep).indeg k = alGet acc.indeg k := by
  unfold graphStepDep
  split
  · exact alGet_alSet_ne _ _ _ _ hk
  · rfl

theorem depsFold_indeg_other (ids : List String) (i : String)
    (deps : List String) (acc : GraphAcc) {k : String} (hk : k ≠ i) :
    alGet (deps.foldl (graphStepDep ids i) acc).indeg k = alGet acc.indeg k := by
  induction deps generalizing acc with
  | nil => rfl
  | cons dep rest ih =>
      rw [List.foldl_cons, ih _, graphStepDep_indeg_other ids i acc dep hk]

theorem opsFold_indeg_zero (ids : List String)
    (ops : List OperationWithMetadata) (acc : GraphAcc)
    {o : OperationWithMetadata}
    (hops : ∀ op' ∈ ops, op'.metadata.id = o.metadata.id →
      ∀ d ∈ op'.metadata.dependencies, d ∉ ids) :
    alGet (ops.foldl (graphStepOp ids) acc).indeg o.metadata.id
      = alGet acc.indeg o.metadata.id := by
  induction ops generalizing acc with
  | nil => rfl
  | cons op rest ih =>
      rw [List.foldl_cons,
        ih _ (fun op' h' => hops op' (List.mem_cons_of_mem _ h'))]
      by_cases hid : op.metadata.id = o.metadata.id
      · unfold graphStepOp
        rw [depsFold_indeg_skip ids op.metadata.id _ acc
          (hops op (List.mem_cons_self _ _) hid)]
      · unfold graphStepOp
        exact depsFold_indeg_other ids op.metadata.id _ acc
          (fun hh => hid hh.symm)

theorem indeg0_values (ops : List OperationWithMetadata)
    (acc : List (String × Nat)) (k : String) :
    alGet (ops.foldl (fun m op => alSet m op.metadata.id 0) acc) k = some 0 ∨
    alGet (ops.foldl (fun m op => alSet m op.metadata.id 0) acc) k = alGet acc k := by
  induction ops generalizing acc with
  | nil => right; rfl
  | cons op rest ih =>
      rw [List.foldl_cons]
      rcases ih (alSet acc op.metadata.id 0) with h | h
      · left; exact h
      · by_cases hk : k = op.metadata.id
        · left; rw [h, hk, alGet_alSet_self]
        · right; rw [h, alGet_alSet_ne _ _ _ _ hk]

theorem indeg0_of_mem (ops : List OperationWithMetadata)
    (acc : List (String × Nat)) {o : OperationWithMetadata} (ho : o ∈ ops) :
    alGet (ops.foldl (fun m op => alSet m op.metadata.id 0) acc) o.metadata.id
      = some 0 := by
  induction ops generalizing acc with
  | nil => cases ho
  | cons op rest ih =>
      rw [List.foldl_cons]
      rcases List.mem_cons.mp ho with h | h
      · subst h
        rcases indeg0_values rest (alSet acc o.metadata.id 0) o.metadata.id with
          h2 | h2
        · exact h2
        · rw [h2, alGet_alSet_self]
      · exact ih _ h

theorem idMap_skip (ops : List OperationWithMetadata)
    (acc : List (String × OperationWithMetadata)) {k : String}
    (h : k ∉ opIds ops) :
    alGet (ops.foldl (fun m op => alSet m op.metadata.id op) acc) k
      = alGet acc k := by
  induction ops generalizing acc with
  | nil => rfl
  | cons op rest ih =>
      rw [List.foldl_cons,
        ih _ (fun hh => h (List.mem_cons_of_mem _ hh)),
        alGet_alSet_ne _ _ _ _ (fun hh => h (by simp [opIds, hh]))]

theorem idMap_get (ops : List OperationWithMetadata)
    (acc : List (String × OperationWithMetadata))
    {o : OperationWithMetadata}
    (ho : o ∈ ops) (hnodup : (opIds ops).Nodup) :
    alGet (ops.foldl (fun m op => alSet m op.metadata.id op) acc) o.metadata.id
      = some o := by
  induction ops generalizing acc with
  | nil => cases ho
  | cons op rest ih =>
      have hnd := List.nodup_cons.mp
        (show (op.metadata.id :: opIds rest).Nodup from hnodup)
      rw [List.foldl_cons]
      rcases List.mem_cons.mp ho with h | h
      · subst h
        rw [idMap_skip rest _ hnd.1, alGet_alSet_self]
      · exact ih _ h hnd.2


theorem runRound_mem (idMap : List (String × OperationWithMetadata))
    (graph : List (String × List String))
    (queue : List String) (st : KahnSt) {o : OperationWithMetadata}
    (hq : o.metadata.id ∈ queue) (hp : o.metadata.id ∉ st.processed)
    (hmap : alGet idMap o.metadata.id = some o) :
    o ∈ (runRound idMap graph queue st).1 := by
  induction queue generalizing st with
  | nil => cases hq
  | cons id rest ih =>
      by_cases hid : id = o.metadata.id
      · subst hid
        rw [runRound]
        simp only [if_neg hp, hmap]
        exact List.mem_cons_self _ _
      · have hq' : o.metadata.id ∈ rest := by
          rcases List.mem_cons.mp hq with h | h
          · exact absurd h.symm hid
          · exact h
        rw [runRound]
        by_cases hpr : id ∈ st.processed
        · rw [if_pos hpr]
          exact ih _ hq' hp
        · rw [if_neg hpr]
          cases hmap2 : alGet idMap id with
          | none =>
              simp only [hmap2]
              exact ih _ hq' hp
          | some op' =>
              simp only [hmap2]
              have hp' : o.metadata.id ∉ st.processed ++ [id] := by
                intro hmem
                rcases List.mem_append.mp hmem with h | h
                · exact hp h
                · exact hid (List.mem_singleton.mp h).symm
              exact List.mem_cons_of_mem _ (ih _ hq' hp')

theorem kahnLoop_prefix (idMap : List (String × OperationWithMetadata))
    (graph : List (String × List String)) (fuel : Nat)
    (queue : List String) (st : KahnSt) (stages : List PlanStage) :
    ∃ suffix, (kahnLoop idMap graph fuel queue st stages).1 = stages ++ suffix := by
  induction fuel generalizing queue st stages with
  | zero => exact ⟨[], (List.append_nil _).symm⟩
  | succ n ih =>
      cases queue with
      | nil => exact ⟨[], (List.append_nil _).symm⟩
      | cons q qs =>
          rw [kahnLoop]
          by_cases h : (runRound idMap graph (q :: qs) st).1.length > 0
          · rw [if_pos h]
            obtain ⟨suf, hsuf⟩ := ih (runRound idMap graph (q :: qs) st).2.1
              (runRound idMap graph (q :: qs) st).2.2
              (stages ++ [⟨s!"stage-{stages.length + 1}",
                (runRound idMap graph (q :: qs) st).1,
                (runRound idMap graph (q :: qs) st).1.length > 1⟩])
            exact ⟨_, by rw [hsuf, List.append_assoc]⟩
          · rw [if_neg h]
            exact ih _ _ stages

theorem kahnLoop_head (idMap : List (String × OperationWithMetadata))
    (graph : List (String × List String)) (n : Nat)
    (q : String) (qs : List String) (st : KahnSt)
    (hlen : 0 < (runRound idMap graph (q :: qs) st).1.length) :
    ∃ s1 suffix,
      (kahnLoop idMap graph (n + 1) (q :: qs) st []).1 = s1 :: suffix ∧
      s1.operations = (runRound idMap graph (q :: qs) st).1 := by
  rw [kahnLoop]
  rw [if_pos hlen]
  obtain ⟨suf, hsuf⟩ := kahnLoop_prefix idMap graph n
    (runRound idMap graph (q :: qs) st).2.1
    (runRound idMap graph (q :: qs) st).2.2
    ([] ++ [⟨s!"stage-{List.length ([] : List PlanStage) + 1}",
      (runRound idMap graph (q :: qs) st).1,
      (runRound idMap graph (q :: qs) st).1.length > 1⟩])
  refine ⟨⟨s!"stage-{List.length ([] : List PlanStage) + 1}",
    (runRound idMap graph (q :: qs) st).1,
    (runRound idMap graph (q :: qs) st).1.length > 1⟩, suf, ?_, rfl⟩
  simpa using hsuf

theorem cycleFallback_prefix (ops : List OperationWithMetadata)
    (acc : List PlanStage × List String) :
    ∃ suffix, (ops.foldl cycleFallbackStep acc).1 = acc.1 ++ suffix := by
  induction ops generalizing acc with
  | nil => exact ⟨[], (List.append_nil _).symm⟩
  | cons op rest ih =>
      rw [List.foldl_cons]
      by_cases h : op.metadata.id ∈ acc.2
      · have hstep : cycleFallbackStep acc op = acc := by
          simp [cycleFallbackStep, h]
        rw [hstep]
        exact ih acc
      · have hstep : cycleFallbackStep acc op =
            (acc.1 ++ [⟨s!"stage-{acc.1.length + 1}", [op], false⟩],
             acc.2 ++ [op.metadata.id]) := by
          simp [cycleFallbackStep, h]
        rw [hstep]
        obtain ⟨suf, hsuf⟩ := ih (acc.1 ++ [⟨s!"stage-{acc.1.length + 1}",
          [op], false⟩], acc.2 ++ [op.metadata.id])
        exact ⟨_, by rw [hsuf, List.append_assoc]⟩

theorem stagesPost_warn (operations : List OperationWithMetadata)
    (warnings : List String) (lk : List PlanStage × KahnSt) {w : String}
    (hw : w ∈ warnings) : w ∈ (stagesPost operations warnings lk).2 := by
  simp only [stagesPost]
  by_cases h1 : lk.2.processed.length ≠ operations.length
  · rw [if_pos h1]
    by_cases h2 : (operations.foldl cycleFallbackStep
        (lk.1, lk.2.processed)).1.length = 0
    · rw [if_pos h2]
      exact List.mem_append_left _ hw
    · rw [if_neg h2]
      exact List.mem_append_left _ hw
  · rw [if_neg h1]
    by_cases h2 : lk.1.length = 0
    · rw [if_pos h2]; exact hw
    · rw [if_neg h2]; exact hw

theorem stagesPost_head (operations : List OperationWithMetadata)
    (warnings : List String) (lk : List PlanStage × KahnSt)
    {s1 : PlanStage} {suffix : List PlanStage}
    (hlk : lk.1 = s1 :: suffix) :
    ∃ rest, (stagesPost operations warnings lk).1 = s1 :: rest := by
  simp only [stagesPost]
  by_cases h1 : lk.2.processed.length ≠ operations.length
  · rw [if_pos h1]
    obtain ⟨suf, hsuf⟩ := cycleFallback_prefix operations (lk.1, lk.2.processed)
    have hfb : (operations.foldl cycleFallbackStep (lk.1, lk.2.processed)).1
        = s1 :: (suffix ++ suf) := by
      rw [hsuf]
      simp [hlk]
    rw [if_neg (by rw [hfb]; simp)]
    exact ⟨suffix ++ suf, hfb⟩
  · rw [if_neg h1]
    rw [if_neg (by rw [hlk]; simp)]
    exact ⟨suffix, hlk⟩

/-- C5: for every operation whose declared dependency id is not present in
the input, the planner records the warning
`"Operation X depends on missing operation Y. It will run anyway."`; the
edge is ignored for the dependency graph, so an operation all of whose
declared dependencies are missing keeps indegree zero and lands in the
first stage of the plan, where the executor runs it normally. -/
theorem c5_missing_dependency
    (ops : List OperationWithMetadata) (o : OperationWithMetadata) (d : String)
    (ho : o ∈ ops) (hd : d ∈ o.metadata.dependencies)
    (hnodup : (opIds ops).Nodup)
    (hallmiss : ∀ d' ∈ o.metadata.dependencies, d' ∉ opIds ops) :
    missingDepWarning o.metadata.id d ∈ (buildStages ops).2 ∧
    ∃ s1 rest, (buildStages ops).1 = s1 :: rest ∧ o ∈ s1.operations := by
  have hmiss : d ∉ opIds ops := hallmiss d hd
  have hwarn : missingDepWarning o.metadata.id d ∈ (buildGraph ops).warnings :=
    buildGraph_warn_present ops ho hd hmiss
  have hindeg : alGet (buildGraph ops).indeg o.metadata.id = some 0 := by
    unfold buildGraph
    rw [opsFold_indeg_zero (opIds ops) ops _ ?_]
    · exact indeg0_of_mem ops [] ho
    · intro op' hop' hid d' hd'
      have hinj := List.inj_on_of_nodup_map (by simpa [opIds] using hnodup)
      have : op' = o := hinj hop' ho hid
      subst this
      exact hallmiss d' hd'
  have hq0 : o.metadata.id ∈ stagesQueue0 (buildGraph ops) := by
    refine List.mem_map.mpr ⟨(o.metadata.id, 0), ?_, rfl⟩
    refine List.mem_filter.mpr ⟨alGet_mem hindeg, by simp⟩
  have hmap : alGet (stagesIdMap ops) o.metadata.id = some o :=
    idMap_get ops [] ho hnodup
  obtain ⟨q, qs, hqq⟩ : ∃ q qs, stagesQueue0 (buildGraph ops) = q :: qs := by
    rcases hq : stagesQueue0 (buildGraph ops) with _ | ⟨q, qs⟩
    · rw [hq] at hq0; cases hq0
    · exact ⟨q, qs, rfl⟩
  obtain ⟨n, hn⟩ : ∃ n, ops.length = n + 1 := by
    cases ops with
    | nil => cases ho
    | cons a l => exact ⟨l.length, rfl⟩
  have hrr : o ∈ (runRound (stagesIdMap ops) (buildGraph ops).graph
      (q :: qs) ⟨(buildGraph ops).indeg, []⟩).1 := by
    refine runRound_mem _ _ _ _ ?_ (by simp) hmap
    rw [← hqq]; exact hq0
  have hlen : 0 < (runRound (stagesIdMap ops) (buildGraph ops).graph
      (q :: qs) ⟨(buildGraph ops).indeg, []⟩).1.length :=
    List.length_pos.mpr (List.ne_nil_of_mem hrr)
  obtain ⟨s1, suffix, hlk, hops⟩ := kahnLoop_head (stagesIdMap ops)
    (buildGraph ops).graph n q qs ⟨(buildGraph ops).indeg, []⟩ hlen
  have hbs : buildStages ops = stagesPost ops (buildGraph ops).warnings
      (kahnLoop (stagesIdMap ops) (buildGraph ops).graph ops.length
        (stagesQueue0 (buildGraph ops)) ⟨(buildGraph ops).indeg, []⟩ []) := rfl
  constructor
  · rw [hbs]
    exact stagesPost_warn _ _ _ hwarn
  · rw [hbs, hqq, hn]
    obtain ⟨rest, hrest⟩ := stagesPost_head ops (buildGraph ops).warnings _ hlk
    refine ⟨s1, rest, hrest, ?_⟩
    rw [hops]
    exact hrr

theorem c5_missing_dependency_witness :
    let o : OperationWithMetadata :=
      ⟨.file ⟨.ensure, "a.txt", some "x", none, none⟩,
       ⟨"op-1", ["missing-op"], none⟩⟩
    missingDepWarning "op-1" "missing-op" ∈ (buildStages [o]).2 ∧
    ∃ s1 rest, (buildStages [o]).1 = s1 :: rest ∧ o ∈ s1.operations :=
  c5_missing_dependency _ _ "missing-op" (List.mem_singleton.mpr rfl)
    (List.mem_singleton.mpr rfl) (by decide) (by decide)

/-! ## Filesystem data-level lemmas -/

/-- The bytes-relevant view of a filesystem entry. -/
def dataAt (fs : List (Path × FileEntry)) (p : Path) : Option Content :=
  (alGet fs p).map (·.data)

theorem exceptBind_error (e : ε) (f : α → Except ε β) :
    (Except.error e : Except ε α) >>= f = Except.error e := rfl

theorem alGet_fsWrite_self (fs : List (Path × FileEntry)) (p : Path)
    (c : Content) :
    ∃ m, alGet (fsWrite fs p c) p = some ⟨c, m⟩ := by
  unfold fsWrite
  cases h : alGet fs p with
  | none => exact ⟨defaultFileMode, alGet_alSet_self _ _ _⟩
  | some e => exact ⟨e.mode, alGet_alSet_self _ _ _⟩

theorem alGet_fsWrite_ne (fs : List (Path × FileEntry)) (p q : Path)
    (c : Content) (h : q ≠ p) :
    alGet (fsWrite fs p c) q = alGet fs q := by
  unfold fsWrite
  cases alGet fs p with
  | none => exact alGet_alSet_ne _ _ _ _ h
  | some e => exact alGet_alSet_ne _ _ _ _ h

theorem dataAt_fsWrite_self (fs : List (Path × FileEntry)) (p : Path)
    (c : Content) : dataAt (fsWrite fs p c) p = some c := by
  obtain ⟨m, hm⟩ := alGet_fsWrite_self fs p c
  simp [dataAt, hm]

theorem dataAt_fsWrite_ne (fs : List (Path × FileEntry)) (p q : Path)
    (c : Content) (h : q ≠ p) : dataAt (fsWrite fs p c) q = dataAt fs q := by
  simp [dataAt, alGet_fsWrite_ne fs p q c h]

theorem dataAt_fsChmod (fs : List (Path × FileEntry)) (p : Path) (m : Nat)
    (q : Path) : dataAt (fsChmod fs p m) q = dataAt fs q := by
  unfold fsChmod
  cases h : alGet fs p with
  | none => rfl
  | some e =>
      by_cases hq : q = p
      · subst hq
        simp [dataAt, alGet_alSet_self, h]
      · simp [dataAt, alGet_alSet_ne _ _ _ _ hq]

theorem alGet_fsChmod_ne (fs : List (Path × FileEntry)) (p q : Path) (m : Nat)
    (h : q ≠ p) : alGet (fsChmod fs p m) q = alGet fs q := by
  unfold fsChmod
  cases alGet fs p with
  | none => rfl
  | some e => exact alGet_alSet_ne _ _ _ _ h

theorem dataAt_alRemove_self (fs : List (Path × FileEntry)) (p : Path) :
    dataAt (alRemove fs p) p = none := by
  simp [dataAt, alGet_alRemove_self]

theorem dataAt_alRemove_ne (fs : List (Path × FileEntry)) (p q : Path)
    (h : q ≠ p) : dataAt (alRemove fs p) q = dataAt fs q := by
  simp [dataAt, alGet_alRemove_ne _ _ _ h]

/-! ## Rollback algebra -/

theorem rollbackFs_nil (backups : List (Nat × Content))
    (fs : List (Path × FileEntry)) : rollbackFs [] backups fs = fs := rfl

theorem rollbackFs_append_one (muts : List Mutation) (m : Mutation)
    (backups : List (Nat × Content)) (fs : List (Path × FileEntry)) :
    rollbackFs (muts ++ [m]) backups fs
      = rollbackFs muts backups (rollbackStep backups fs m) := by
  simp [rollbackFs, List.reverse_append]

theorem rollbackFs_cons (m : Mutation) (muts : List Mutation)
    (backups : List (Nat × Content)) (fs : List (Path × FileEntry)) :
    rollbackFs (m :: muts) backups fs
      = rollbackStep backups (rollbackFs muts backups fs) m := by
  simp [rollbackFs, List.foldl_append]

theorem alGet_append_ne [DecidableEq α] (l : List (α × β)) (k b : α) (v : β)
    (h : b ≠ k) : alGet (l ++ [(k, v)]) b = alGet l b := by
  rw [alGet_append]
  cases alGet l b with
  | none => simp [alGet, Ne.symm h]
  | some w => rfl

theorem rollbackStep_backups_extend (backups : List (Nat × Content))
    (k : Nat) (v : Content) (fs : List (Path × FileEntry)) (m : Mutation)
    (h : ∀ b, m.backupPath = some b → b ≠ k) :
    rollbackStep (backups ++ [(k, v)]) fs m = rollbackStep backups fs m := by
  unfold rollbackStep
  cases hb : m.backupPath with
  | none => rfl
  | some b =>
      have hne := alGet_append_ne backups k b v (h b hb)
      simp only [hne]

theorem rollbackFs_backups_extend (muts : List Mutation)
    (backups : List (Nat × Content)) (k : Nat) (v : Content)
    (fs : List (Path × FileEntry))
    (h : ∀ m ∈ muts, ∀ b, m.backupPath = some b → b ≠ k) :
    rollbackFs muts (backups ++ [(k, v)]) fs = rollbackFs muts backups fs := by
  induction muts generalizing fs with
  | nil => rfl
  | cons m rest ih =>
      rw [rollbackFs_cons, rollbackFs_cons,
        ih _ (fun m' hm' => h m' (List.mem_cons_of_mem _ hm')),
        rollbackStep_backups_extend _ _ _ _ _ (h m (List.mem_cons_self _ _))]

theorem rollbackStep_congr (backups : List (Nat × Content))
    (fs fs' : List (Path × FileEntry)) (m : Mutation)
    (h : ∀ p, dataAt fs p = dataAt fs' p) (p : Path) :
    dataAt (rollbackStep backups fs m) p = dataAt (rollbackStep backups fs' m) p := by
  obtain ⟨tp, bp, eb⟩ := m
  cases bp with
  | none =>
      cases eb with
      | true => simpa [rollbackStep] using h p
      | false =>
          by_cases hp : p = tp
          · subst hp; simp [rollbackStep, dataAt_alRemove_self]
          · simp [rollbackStep, dataAt_alRemove_ne _ _ _ hp, h p]
  | some b =>
      cases hb : alGet backups b with
      | none => simpa [rollbackStep, hb] using h p
      | some content =>
          by_cases hp : p = tp
          · subst hp; simp [rollbackStep, hb, dataAt_fsWrite_self]
          · simp [rollbackStep, hb, dataAt_fsWrite_ne _ _ _ _ hp, h p]

theorem rollbackFs_congr (muts : List Mutation)
    (backups : List (Nat × Content)) (fs fs' : List (Path × FileEntry))
    (h : ∀ p, dataAt fs p = dataAt fs' p) (p : Path) :
    dataAt (rollbackFs muts backups fs) p
      = dataAt (rollbackFs muts backups fs') p := by
  induction muts generalizing p with
  | nil => exact h p
  | cons m rest ih =>
      rw [rollbackFs_cons, rollbackFs_cons]
      exact rollbackStep_congr backups _ _ m (fun q => ih q) p

end SetupEngine

namespace SetupEngine

/-! ## Backup helpers and the run invariant -/

theorem createBackupIfNeeded_none (target : Path) (st : ExecState)
    (h : alGet st.fs target = none) :
    createBackupIfNeeded target st = (none, st) := by
  unfold createBackupIfNeeded
  rw [h]

theorem createBackupIfNeeded_some (target : Path) (st : ExecState)
    (e : FileEntry) (h : alGet st.fs target = some e) :
    createBackupIfNeeded target st =
      (some st.clock,
       { st with backups := st.backups ++ [(st.clock, e.data)],
                 clock := st.clock + 1,
                 backupRegistry := st.backupRegistry ++ [st.clock] }) := by
  unfold createBackupIfNeeded
  rw [h]

theorem createBackupIfNeeded_fs (target : Path) (st : ExecState) :
    (createBackupIfNeeded target st).2.fs = st.fs := by
  unfold createBackupIfNeeded
  cases alGet st.fs target <;> rfl

theorem createBackupIfNeeded_mutations (target : Path) (st : ExecState) :
    (createBackupIfNeeded target st).2.mutations = st.mutations := by
  unfold createBackupIfNeeded
  cases alGet st.fs target <;> rfl

theorem createBackupIfNeeded_journal (target : Path) (st : ExecState) :
    (createBackupIfNeeded target st).2.journal = st.journal := by
  unfold createBackupIfNeeded
  cases alGet st.fs target <;> rfl

theorem createBackupIfNeeded_logs (target : Path) (st : ExecState) :
    (createBackupIfNeeded target st).2.logs = st.logs := by
  unfold createBackupIfNeeded
  cases alGet st.fs target <;> rfl

/-- The state shape every mutating applier branch produces: an optional
backup of the target, a new filesystem, and a recorded mutation. -/
def mutatedState (st : ExecState) (target : Path)
    (fs' : List (Path × FileEntry)) (created : Bool) : ExecState :=
  recordMutation { (createBackupIfNeeded target st).2 with fs := fs' }
    target (createBackupIfNeeded target st).1 created

theorem alGet_none_of_keysLt (l : List (Nat × Content)) (c : Nat)
    (h : ∀ kv ∈ l, kv.1 < c) : alGet l c = none := by
  cases hg : alGet l c with
  | none => rfl
  | some v =>
      have := h _ (alGet_mem hg)
      omega

/-- The invariant every real (non-dry) run maintains: backup keys are below
the clock, mutation backup references are below the clock, and replaying
the mutation log restores the pre-run bytes everywhere. -/
structure StInv (fs₀ : List (Path × FileEntry)) (st : ExecState) : Prop where
  keysLt : ∀ kv ∈ st.backups, kv.1 < st.clock
  mutKeysLt : ∀ m ∈ st.mutations, ∀ b, m.backupPath = some b → b < st.clock
  restore : ∀ p, dataAt (rollbackFs st.mutations st.backups st.fs) p = dataAt fs₀ p

theorem StInv.init (st : ExecState)
    (hkeys : ∀ kv ∈ st.backups, kv.1 < st.clock)
    (hmuts : st.mutations = []) : StInv st.fs st := by
  refine ⟨hkeys, ?_, ?_⟩
  · intro m hm
    rw [hmuts] at hm
    cases hm
  · intro p
    rw [hmuts, rollbackFs_nil]

theorem StInv.write (fs₀ : List (Path × FileEntry)) (st : ExecState)
    (target : Path) (fs' : List (Path × FileEntry)) (created : Bool)
    (inv : StInv fs₀ st)
    (hframe : ∀ q, q ≠ target → dataAt fs' q = dataAt st.fs q)
    (hc : alGet st.fs target = none → created = true) :
    StInv fs₀ (mutatedState st target fs' created) := by
  cases halGet : alGet st.fs target with
  | some e =>
      have hst : mutatedState st target fs' created =
          { fs := fs', backups := st.backups ++ [(st.clock, e.data)],
            logs := st.logs, clock := st.clock + 1,
            mutations := st.mutations ++ [⟨target, some st.clock, !created⟩],
            backupRegistry := st.backupRegistry ++ [st.clock],
            journal := st.journal } := by
        rw [mutatedState, createBackupIfNeeded_some target st e halGet]
        rfl
      rw [hst]
      have hbk : alGet (st.backups ++ [(st.clock, e.data)]) st.clock
          = some e.data := by
        rw [alGet_append, alGet_none_of_keysLt st.backups st.clock inv.keysLt]
        simp [alGet]
      refine ⟨?_, ?_, ?_⟩
      · intro kv hkv
        rcases List.mem_append.mp hkv with hkv | hkv
        · exact Nat.lt_succ_of_lt (inv.keysLt kv hkv)
        · rcases List.mem_singleton.mp hkv with rfl
          exact Nat.lt_succ_self _
      · intro m hm b hb
        rcases List.mem_append.mp hm with hm | hm
        · exact Nat.lt_succ_of_lt (inv.mutKeysLt m hm b hb)
        · rcases List.mem_singleton.mp hm with rfl
          simp only [Option.some.injEq] at hb
          subst hb
          exact Nat.lt_succ_self _
      · intro p
        simp only
        rw [rollbackFs_append_one]
        have hone : rollbackStep (st.backups ++ [(st.clock, e.data)]) fs'
            ⟨target, some st.clock, !created⟩ = fsWrite fs' target e.data := by
          simp [rollbackStep, hbk]
        rw [hone]
        have hstep : ∀ q, dataAt (fsWrite fs' target e.data) q
            = dataAt st.fs q := by
          intro q
          by_cases hq : q = target
          · subst hq
            rw [dataAt_fsWrite_self]
            simp [dataAt, halGet]
          · rw [dataAt_fsWrite_ne _ _ _ _ hq]
            exact hframe q hq
        rw [rollbackFs_backups_extend st.mutations st.backups st.clock e.data _
          (fun m hm b hb => Nat.ne_of_lt (inv.mutKeysLt m hm b hb))]
        calc dataAt (rollbackFs st.mutations st.backups
              (fsWrite fs' target e.data)) p
            = dataAt (rollbackFs st.mutations st.backups st.fs) p :=
              rollbackFs_congr _ _ _ _ hstep p
          _ = dataAt fs₀ p := inv.restore p
  | none =>
      have hcr : created = true := hc halGet
      subst hcr
      have hst : mutatedState st target fs' true =
          { fs := fs', backups := st.backups, logs := st.logs,
            clock := st.clock,
            mutations := st.mutations ++ [⟨target, none, !true⟩],
            backupRegistry := st.backupRegistry, journal := st.journal } := by
        rw [mutatedState, createBackupIfNeeded_none target st halGet]
        rfl
      rw [hst]
      refine ⟨inv.keysLt, ?_, ?_⟩
      · intro m hm b hb
        rcases List.mem_append.mp hm with hm | hm
        · exact inv.mutKeysLt m hm b hb
        · rcases List.mem_singleton.mp hm with rfl
          cases hb
      · intro p
        simp only
        rw [rollbackFs_append_one]
        have hone : rollbackStep st.backups fs' ⟨target, none, !true⟩
            = alRemove fs' target := by
          simp [rollbackStep]
        rw [hone]
        have hstep : ∀ q, dataAt (alRemove fs' target) q = dataAt st.fs q := by
          intro q
          by_cases hq : q = target
          · subst hq
            rw [dataAt_alRemove_self]
            simp [dataAt, halGet]
          · rw [dataAt_alRemove_ne _ _ _ hq]
            exact hframe q hq
        calc dataAt (rollbackFs st.mutations st.backups (alRemove fs' target)) p
            = dataAt (rollbackFs st.mutations st.backups st.fs) p :=
              rollbackFs_congr _ _ _ _ hstep p
          _ = dataAt fs₀ p := inv.restore p

/-- Everything a successful applier call can do to the state: leave it
unchanged reporting no change, or report a change, back up the target if it
existed, replace the filesystem at the target only, and record the
mutation. -/
def OkOutcome (st : ExecState) (target : Path) (c : Bool) (b : Option Nat)
    (st' : ExecState) : Prop :=
  (c = false ∧ b = none ∧ st' = st) ∨
  (∃ fs' created,
    (∀ q, q ≠ target → alGet fs' q = alGet st.fs q) ∧
    (alGet st.fs target = none → created = true) ∧
    c = true ∧ b = (createBackupIfNeeded target st).1 ∧
    st' = mutatedState st target fs' created)

theorem applyFileOperation_cases (ρ : ExecParams) (op : FileOperation)
    (meta : OperationMetadata) (st : ExecState) (c : Bool) (b : Option Nat)
    (st' : ExecState)
    (h : applyFileOperation ρ op meta st = .ok (c, b, st')) :
    ∃ target, resolveWorkspacePath ρ.workspaceRoot op.path = .ok target ∧
      OkOutcome st target c b st' := by
  unfold applyFileOperation at h
  cases hres : resolveWorkspacePath ρ.workspaceRoot op.path with
  | error e =>
      rw [hres] at h
      exact Except.noConfusion h
  | ok target =>
      rw [hres] at h
      dsimp only at h
      refine ⟨target, rfl, ?_⟩
      by_cases hdel : op.action = .delete
      · rw [if_pos hdel] at h
        cases halGet : alGet st.fs target with
        | none =>
            simp [halGet, exceptPure] at h
            obtain ⟨rfl, rfl, rfl⟩ := h
            exact Or.inl ⟨rfl, rfl, rfl⟩
        | some e =>
            simp [halGet, exceptPure] at h
            obtain ⟨rfl, rfl, rfl⟩ := h
            refine Or.inr ⟨alRemove (createBackupIfNeeded target st).2.fs target,
              true, ?_, fun _ => rfl, rfl, rfl, rfl⟩
            intro q hq
            rw [createBackupIfNeeded_fs]
            exact alGet_alRemove_ne _ _ _ hq
      · rw [if_neg hdel] at h
        cases hcon : resolveFileContent op meta with
        | error e2 =>
            rw [hcon] at h
            exact Except.noConfusion h
        | ok nc =>
            rw [hcon] at h
            dsimp only at h
            cases halGet : alGet st.fs target with
            | some e =>
                by_cases heq : e.data.bytes = nc
                · simp [halGet, heq, exceptPure] at h
                  obtain ⟨rfl, rfl, rfl⟩ := h
                  exact Or.inl ⟨rfl, rfl, rfl⟩
                · cases hmode : op.mode with
                  | some m =>
                      simp [halGet, heq, hmode, exceptPure] at h
                      obtain ⟨rfl, rfl, rfl⟩ := h
                      refine Or.inr ⟨fsChmod (fsWrite
                          (createBackupIfNeeded target st).2.fs target
                          (.text nc)) target m, false, ?_, ?_, rfl, rfl, rfl⟩
                      · intro q hq
                        rw [alGet_fsChmod_ne _ _ _ _ hq,
                          alGet_fsWrite_ne _ _ _ _ hq, createBackupIfNeeded_fs]
                      · intro hn
                        rw [halGet] at hn
                        cases hn
                  | none =>
                      simp [halGet, heq, hmode, exceptPure] at h
                      obtain ⟨rfl, rfl, rfl⟩ := h
                      refine Or.inr ⟨fsWrite
                          (createBackupIfNeeded target st).2.fs target
                          (.text nc), false, ?_, ?_, rfl, rfl, rfl⟩
                      · intro q hq
                        rw [alGet_fsWrite_ne _ _ _ _ hq, createBackupIfNeeded_fs]
                      · intro hn
                        rw [halGet] at hn
                        cases hn
            | none =>
                cases hmode : op.mode with
                | some m =>
                    simp [halGet, hmode, exceptPure] at h
                    obtain ⟨rfl, rfl, rfl⟩ := h
                    refine Or.inr ⟨fsChmod (fsWrite st.fs target (.text nc))
                        target m, true, ?_, fun _ => rfl, rfl, ?_, ?_⟩
                    · intro q hq
                      rw [alGet_fsChmod_ne _ _ _ _ hq,
                        alGet_fsWrite_ne _ _ _ _ hq]
                    · rw [createBackupIfNeeded_none target st halGet]
                    · rw [mutatedState, createBackupIfNeeded_none target st halGet]
                | none =>
                    simp [halGet, hmode, exceptPure] at h
                    obtain ⟨rfl, rfl, rfl⟩ := h
                    refine Or.inr ⟨fsWrite st.fs target (.text nc), true, ?_,
                      fun _ => rfl, rfl, ?_, ?_⟩
                    · intro q hq
                      rw [alGet_fsWrite_ne _ _ _ _ hq]
                    · rw [createBackupIfNeeded_none target st halGet]
                    · rw [mutatedState, createBackupIfNeeded_none target st halGet]

theorem applyConfigOperation_cases (ρ : ExecParams) (op : ConfigOperation)
    (st : ExecState) (c : Bool) (b : Option Nat) (st' : ExecState)
    (h : applyConfigOperation ρ op st = .ok (c, b, st')) :
    ∃ target, resolveWorkspacePath ρ.workspaceRoot op.path = .ok target ∧
      OkOutcome st target c b st' := by
  unfold applyConfigOperation at h
  cases hres : resolveWorkspacePath ρ.workspaceRoot op.path with
  | error e =>
      rw [hres] at h
      exact Except.noConfusion h
  | ok target =>
      rw [hres] at h
      dsimp only at h
      refine ⟨target, rfl, ?_⟩
      cases halGet : alGet st.fs target with
      | none =>
          by_cases hch : (applyConfigMutationSegs (Json.obj .nil) op.action
              (decodePointer op.pointer) op.value op.strategy).changed = false
          · simp [halGet, hch, exceptPure] at h
            obtain ⟨rfl, rfl, rfl⟩ := h
            exact Or.inl ⟨rfl, rfl, rfl⟩
          · rw [Bool.not_eq_false] at hch
            simp [halGet, hch, exceptPure] at h
            obtain ⟨rfl, rfl, rfl⟩ := h
            refine Or.inr ⟨fsWrite st.fs target (.jdoc
              (applyConfigMutationSegs (Json.obj .nil) op.action
                (decodePointer op.pointer) op.value op.strategy).document),
              true, ?_, fun _ => rfl, rfl, ?_, ?_⟩
            · intro q hq
              rw [alGet_fsWrite_ne _ _ _ _ hq]
            · rw [createBackupIfNeeded_none target st halGet]
            · rw [mutatedState, createBackupIfNeeded_none target st halGet]
      | some e =>
          cases hparse : parseConfigFile e.data with
          | error e2 =>
              rw [halGet] at h
              simp only [hparse] at h
              exact Except.noConfusion h
          | ok doc =>
              by_cases hch : (applyConfigMutationSegs doc op.action
                  (decodePointer op.pointer) op.value op.strategy).changed = false
              · simp [halGet, hparse, hch, exceptPure] at h
                obtain ⟨rfl, rfl, rfl⟩ := h
                exact Or.inl ⟨rfl, rfl, rfl⟩
              · rw [Bool.not_eq_false] at hch
                simp [halGet, hparse, hch, exceptPure] at h
                obtain ⟨rfl, rfl, rfl⟩ := h
                refine Or.inr ⟨fsWrite (createBackupIfNeeded target st).2.fs
                  target (.jdoc (applyConfigMutationSegs doc op.action
                    (decodePointer op.pointer) op.value op.strategy).document),
                  false, ?_, ?_, rfl, rfl, rfl⟩
                · intro q hq
                  rw [alGet_fsWrite_ne _ _ _ _ hq, createBackupIfNeeded_fs]
                · intro hn
                  rw [halGet] at hn
                  cases hn

theorem okOutcome_write_none (st : ExecState) (target : Path) (d : Content)
    (halGet : alGet st.fs target = none) :
    OkOutcome st target true none
      (recordMutation { st with fs := fsWrite st.fs target d }
        target none true) := by
  refine Or.inr ⟨fsWrite st.fs target d, true, ?_, fun _ => rfl, rfl, ?_, ?_⟩
  · intro q hq
    rw [alGet_fsWrite_ne _ _ _ _ hq]
  · rw [createBackupIfNeeded_none target st halGet]
  · rw [mutatedState, createBackupIfNeeded_none target st halGet]

theorem okOutcome_write_some (st : ExecState) (target : Path) (d : Content)
    (e : FileEntry) (halGet : alGet st.fs target = some e) :
    OkOutcome st target true (createBackupIfNeeded target st).1
      (recordMutation { (createBackupIfNeeded target st).2 with
          fs := fsWrite (createBackupIfNeeded target st).2.fs target d }
        target (createBackupIfNeeded target st).1 false) := by
  refine Or.inr ⟨fsWrite (createBackupIfNeeded target st).2.fs target d,
    false, ?_, ?_, rfl, rfl, rfl⟩
  · intro q hq
    rw [alGet_fsWrite_ne _ _ _ _ hq, createBackupIfNeeded_fs]
  · intro hn
    rw [halGet] at hn
    cases hn

theorem applyScriptOperation_cases (ρ : ExecParams) (op : ScriptOperation)
    (st : ExecState) (c : Bool) (b : Option Nat) (st' : ExecState)
    (h : applyScriptOperation ρ op st = .ok (c, b, st')) :
    ∃ target, resolveWorkspacePath ρ.workspaceRoot op.file = .ok target ∧
      OkOutcome st target c b st' := by
  unfold applyScriptOperation at h
  cases hres : resolveWorkspacePath ρ.workspaceRoot op.file with
  | error e =>
      rw [hres] at h
      exact Except.noConfusion h
  | ok target =>
      rw [hres] at h
      dsimp only at h
      refine ⟨target, rfl, ?_⟩
      cases halGet : alGet st.fs target with
      | none =>
          simp only [halGet] at h
          by_cases hdel : op.action = .delete
          · simp [hdel, scriptsOf, Json.getProp, JsonObj.lookup, exceptPure,
              writeManifest] at h
            obtain ⟨rfl, rfl, rfl⟩ := h
            exact Or.inl ⟨rfl, rfl, rfl⟩
          · simp [hdel, scriptsOf, Json.getProp, JsonObj.lookup, exceptPure,
              writeManifest] at h
            obtain ⟨rfl, rfl, rfl⟩ := h
            exact okOutcome_write_none st target _ halGet
      | some e =>
          simp only [halGet] at h
          cases hparse : parseManifestFile e.data with
          | error e2 =>
              simp only [hparse] at h
              exact Except.noConfusion h
          | ok pkg0 =>
              simp only [hparse] at h
              by_cases hdel : op.action = .delete
              · cases hcur : (scriptsOf pkg0).getProp op.name with
                | none =>
                    simp [hdel, hcur, exceptPure, writeManifest] at h
                    obtain ⟨rfl, rfl, rfl⟩ := h
                    exact Or.inl ⟨rfl, rfl, rfl⟩
                | some v =>
                    simp [hdel, hcur, exceptPure, writeManifest] at h
                    obtain ⟨rfl, rfl, rfl⟩ := h
                    exact okOutcome_write_some st target _ e halGet
              · cases hcur : (scriptsOf pkg0).getProp op.name with
                | none =>
                    simp [hdel, hcur, exceptPure, writeManifest] at h
                    obtain ⟨rfl, rfl, rfl⟩ := h
                    exact okOutcome_write_some st target _ e halGet
                | some v =>
                    by_cases hcf : v != Json.str (op.command.getD "")
                    · cases hresol : op.conflictResolution.getD .prompt with
                      | keep =>
                          simp [hdel, hcur, hcf, hresol, exceptPure,
                            writeManifest] at h
                          obtain ⟨rfl, rfl, rfl⟩ := h
                          exact Or.inl ⟨rfl, rfl, rfl⟩
                      | replace =>
                          simp [hdel, hcur, hcf, hresol, exceptPure,
                            writeManifest] at h
                          obtain ⟨rfl, rfl, rfl⟩ := h
                          exact okOutcome_write_some st target _ e halGet
                      | prompt =>
                          by_cases hauto : ρ.autoConfirm
                          · simp [hdel, hcur, hcf, hresol, hauto, exceptPure,
                              writeManifest] at h
                            obtain ⟨rfl, rfl, rfl⟩ := h
                            exact okOutcome_write_some st target _ e halGet
                          · simp [hdel, hcur, hcf, hresol, hauto, exceptPure,
                              writeManifest] at h
                    · simp [hdel, hcur, hcf, exceptPure, writeManifest] at h
                      obtain ⟨rfl, rfl, rfl⟩ := h
                      exact okOutcome_write_some st target _ e halGet

theorem applyOperation_cases (ρ : ExecParams) (op : OperationWithMetadata)
    (st : ExecState) (c : Bool) (b : Option Nat) (st' : ExecState)
    (h : applyOperation ρ op st = .ok (c, b, st')) :
    ∃ target, OkOutcome st target c b st' := by
  cases hop : op.operation with
  | file o =>
      rw [applyOperation, hop] at h
      obtain ⟨target, -, hout⟩ := applyFileOperation_cases ρ o op.metadata st c b st' h
      exact ⟨target, hout⟩
  | config o =>
      rw [applyOperation, hop] at h
      obtain ⟨target, -, hout⟩ := applyConfigOperation_cases ρ o st c b st' h
      exact ⟨target, hout⟩
  | script o =>
      rw [applyOperation, hop] at h
      obtain ⟨target, -, hout⟩ := applyScriptOperation_cases ρ o st c b st' h
      exact ⟨target, hout⟩
  | code =>
      rw [applyOperation, hop] at h
      exact Except.noConfusion h

/-! ## Journal calls leave the executor core untouched -/

theorem journalBefore_core (ρ : ExecParams) (op : OperationWithMetadata)
    (st : ExecState) :
    (journalBefore ρ op st).fs = st.fs ∧
    (journalBefore ρ op st).backups = st.backups ∧
    (journalBefore ρ op st).clock = st.clock ∧
    (journalBefore ρ op st).mutations = st.mutations ∧
    (journalBefore ρ op st).backupRegistry = st.backupRegistry ∧
    (journalBefore ρ op st).logs = st.logs := by
  unfold journalBefore
  cases st.journal <;> exact ⟨rfl, rfl, rfl, rfl, rfl, rfl⟩

theorem journalAfter_core (ρ : ExecParams) (op : OperationWithMetadata)
    (bp : Option Nat) (st : ExecState) :
    (journalAfter ρ op bp st).fs = st.fs ∧
    (journalAfter ρ op bp st).backups = st.backups ∧
    (journalAfter ρ op bp st).clock = st.clock ∧
    (journalAfter ρ op bp st).mutations = st.mutations ∧
    (journalAfter ρ op bp st).backupRegistry = st.backupRegistry ∧
    (journalAfter ρ op bp st).logs = st.logs := by
  unfold journalAfter
  cases st.journal with
  | none => exact ⟨rfl, rfl, rfl, rfl, rfl, rfl⟩
  | some j =>
      dsimp only
      cases alGet j.entryIndex op.metadata.id with
      | none => exact ⟨rfl, rfl, rfl, rfl, rfl, rfl⟩
      | some idx =>
          dsimp only
          cases j.entries.get? idx with
          | none => exact ⟨rfl, rfl, rfl, rfl, rfl, rfl⟩
          | some entry => exact ⟨rfl, rfl, rfl, rfl, rfl, rfl⟩

theorem StInv.journalBefore (fs₀ : List (Path × FileEntry)) (ρ : ExecParams)
    (op : OperationWithMetadata) (st : ExecState) (inv : StInv fs₀ st) :
    StInv fs₀ (journalBefore ρ op st) := by
  obtain ⟨h1, h2, h3, h4, -, -⟩ := journalBefore_core ρ op st
  refine ⟨?_, ?_, ?_⟩
  · rw [h2, h3]; exact inv.keysLt
  · rw [h4, h3]; exact inv.mutKeysLt
  · rw [h4, h2, h1]; exact inv.restore

theorem StInv.journalAfter (fs₀ : List (Path × FileEntry)) (ρ : ExecParams)
    (op : OperationWithMetadata) (bp : Option Nat) (st : ExecState)
    (inv : StInv fs₀ st) : StInv fs₀ (journalAfter ρ op bp st) := by
  obtain ⟨h1, h2, h3, h4, -, -⟩ := journalAfter_core ρ op bp st
  refine ⟨?_, ?_, ?_⟩
  · rw [h2, h3]; exact inv.keysLt
  · rw [h4, h3]; exact inv.mutKeysLt
  · rw [h4, h2, h1]; exact inv.restore

theorem OkOutcome.inv (fs₀ : List (Path × FileEntry)) (st : ExecState)
    (target : Path) (c : Bool) (b : Option Nat) (st' : ExecState)
    (hout : OkOutcome st target c b st') (inv : StInv fs₀ st) :
    StInv fs₀ st' := by
  rcases hout with ⟨-, -, rfl⟩ | ⟨fs', created, hframe, hc, -, -, rfl⟩
  · exact inv
  · refine StInv.write fs₀ st target fs' created inv ?_ hc
    intro q hq
    unfold dataAt
    rw [hframe q hq]

/-! ## Failure restores the pre-run bytes -/

theorem execOps_fail_restores (ρ : ExecParams) (hdry : ρ.dryRun = false)
    (ops : List OperationWithMetadata) :
    ∀ (applied : List OperationWithMetadata) (st : ExecState)
      (fs₀ : List (Path × FileEntry)), StInv fs₀ st →
      (execOps ρ ops applied st).1.success = false →
      ∀ p, dataAt (execOps ρ ops applied st).2.fs p = dataAt fs₀ p := by
  induction ops with
  | nil =>
      intro applied st fs₀ inv hfail p
      simp [execOps] at hfail
  | cons op rest ih =>
      intro applied st fs₀ inv hfail p
      simp only [execOps, hdry, Bool.false_eq_true, if_false] at hfail ⊢
      have inv1 := StInv.journalBefore fs₀ ρ op st inv
      cases happ : applyOperation ρ op (journalBefore ρ op st) with
      | ok trip =>
          obtain ⟨c, b, st'⟩ := trip
          rw [happ] at hfail
          dsimp only at hfail ⊢
          obtain ⟨target, hout⟩ :=
            applyOperation_cases ρ op (journalBefore ρ op st) c b st' happ
          have inv2 := OkOutcome.inv fs₀ _ target c b st' hout inv1
          have inv3 := StInv.journalAfter fs₀ ρ op b st' inv2
          exact ih _ _ fs₀ inv3 hfail p
      | error e =>
          rw [happ] at hfail
          dsimp only at hfail ⊢
          exact inv1.restore p

/-- C2: rollback completeness — on a real (non-dry) run whose clock
dominates every pre-existing backup key, if `execute` fails at any
operation then walking the mutation log in reverse (each backup copied
over its target, backup-less created files removed) leaves every path's
bytes equal to the pre-run bytes; in particular paths created by the run
are absent again. -/
theorem c2_rollback_completeness (ρ : ExecParams) (plan : List PlanStage)
    (st : ExecState) (hdry : ρ.dryRun = false)
    (hkeys : ∀ kv ∈ st.backups, kv.1 < st.clock)
    (hfail : (execute ρ plan st).1.success = false) (p : Path) :
    dataAt (execute ρ plan st).2.fs p = dataAt st.fs p := by
  unfold execute at hfail ⊢
  have inv : StInv st.fs { st with mutations := [], backupRegistry := [] } :=
    StInv.init { st with mutations := [], backupRegistry := [] } hkeys rfl
  exact execOps_fail_restores ρ hdry _ [] _ st.fs inv hfail p

theorem c2_rollback_completeness_witness :
    (execute ⟨[], true, false, fun s => s, 10⟩
        [⟨"stage-1",
          [⟨.file ⟨.ensure, "a.txt", some "x", none, none⟩, ⟨"op-1", [], none⟩⟩,
           ⟨.code, ⟨"op-2", [], none⟩⟩], false⟩]
        {}).1.success = false ∧
    dataAt (execute ⟨[], true, false, fun s => s, 10⟩
        [⟨"stage-1",
          [⟨.file ⟨.ensure, "a.txt", some "x", none, none⟩, ⟨"op-1", [], none⟩⟩,
           ⟨.code, ⟨"op-2", [], none⟩⟩], false⟩]
        {}).2.fs ["a.txt"] = dataAt ({} : ExecState).fs ["a.txt"] :=
  ⟨rfl, c2_rollback_completeness ⟨[], true, false, fun s => s, 10⟩
    [⟨"stage-1",
      [⟨.file ⟨.ensure, "a.txt", some "x", none, none⟩, ⟨"op-1", [], none⟩⟩,
       ⟨.code, ⟨"op-2", [], none⟩⟩], false⟩]
    {} rfl (by intro kv h; cases h) rfl ["a.txt"]⟩

/-! ## Path safety -/

/-- The path argument each applier hands to `resolveWorkspacePath` as its
very first step (`op.path` for file and config operations, `op.file` for
script operations); `code` operations never reach a path. -/
def Operation.targetPath? : Operation → Option String
  | .file o => some o.path
  | .config o => some o.path
  | .script o => some o.file
  | .code => none

theorem applyOperation_resolve_error (ρ : ExecParams)
    (op : OperationWithMetadata) (s : String)
    (hs : Operation.targetPath? op.operation = some s) (e : String)
    (he : resolveWorkspacePath ρ.workspaceRoot s = .error e) (st : ExecState) :
    ∃ e', applyOperation ρ op st = .error e' := by
  cases hop : op.operation with
  | file o =>
      rw [hop] at hs
      simp only [Operation.targetPath?, Option.some.injEq] at hs
      subst hs
      refine ⟨e, ?_⟩
      rw [applyOperation, hop]
      dsimp only
      unfold applyFileOperation
      rw [he]
  | config o =>
      rw [hop] at hs
      simp only [Operation.targetPath?, Option.some.injEq] at hs
      subst hs
      refine ⟨e, ?_⟩
      rw [applyOperation, hop]
      dsimp only
      unfold applyConfigOperation
      rw [he]
  | script o =>
      rw [hop] at hs
      simp only [Operation.targetPath?, Option.some.injEq] at hs
      subst hs
      refine ⟨e, ?_⟩
      rw [applyOperation, hop]
      dsimp only
      unfold applyScriptOperation
      rw [he]
  | code =>
      rw [hop] at hs
      simp [Operation.targetPath?] at hs

theorem execOps_fail_of_bad_op (ρ : ExecParams) (hdry : ρ.dryRun = false)
    (bad : OperationWithMetadata)
    (hbad : ∀ st', ∃ e, applyOperation ρ bad st' = .error e) :
    ∀ (ops applied : List OperationWithMetadata) (st : ExecState),
      bad ∈ ops → (execOps ρ ops applied st).1.success = false := by
  intro ops
  induction ops with
  | nil =>
      intro applied st hmem
      cases hmem
  | cons op rest ih =>
      intro applied st hmem
      simp only [execOps, hdry, Bool.false_eq_true, if_false]
      rcases List.mem_cons.mp hmem with rfl | hmem
      · obtain ⟨e, he⟩ := hbad (journalBefore ρ bad st)
        rw [he]
      · cases happ : applyOperation ρ op (journalBefore ρ op st) with
        | ok trip =>
            obtain ⟨c, b, st'⟩ := trip
            dsimp only
            exact ih _ _ hmem
        | error e => rfl

/-- C3: path safety — when a plan contains a file, config or script
operation whose declared path resolves outside the workspace root (so
`resolveWorkspacePath` rejects it), a real run returns `success = false`
and every path's bytes after the run equal the pre-run bytes: the
escaping operation itself is rejected before any write, and whatever
earlier operations wrote is rolled back. -/
theorem c3_path_safety (ρ : ExecParams) (plan : List PlanStage)
    (st : ExecState) (hdry : ρ.dryRun = false)
    (hkeys : ∀ kv ∈ st.backups, kv.1 < st.clock)
    (op : OperationWithMetadata) (hop : op ∈ plan.flatMap (·.operations))
    (s : String) (hs : Operation.targetPath? op.operation = some s)
    (e : String) (hesc : resolveWorkspacePath ρ.workspaceRoot s = .error e)
    (p : Path) :
    (execute ρ plan st).1.success = false ∧
    dataAt (execute ρ plan st).2.fs p = dataAt st.fs p := by
  have hbad := applyOperation_resolve_error ρ op s hs e hesc
  have hfail : (execute ρ plan st).1.success = false := by
    unfold execute
    exact execOps_fail_of_bad_op ρ hdry op hbad _ [] _ hop
  refine ⟨hfail, ?_⟩
  unfold execute at hfail ⊢
  exact execOps_fail_restores ρ hdry _ [] _ st.fs
    (StInv.init { st with mutations := [], backupRegistry := [] } hkeys rfl)
    hfail p

theorem c3_path_safety_witness :
    resolveWorkspacePath ["w"] "../evil.txt"
        = .error "Operation path ../evil.txt escapes workspace root." ∧
    ((execute ⟨["w"], true, false, fun s => s, 10⟩
        [⟨"stage-1",
          [⟨.file ⟨.ensure, "../evil.txt", some "x", none, none⟩,
            ⟨"op-1", [], none⟩⟩], false⟩] {}).1.success = false ∧
      dataAt (execute ⟨["w"], true, false, fun s => s, 10⟩
        [⟨"stage-1",
          [⟨.file ⟨.ensure, "../evil.txt", some "x", none, none⟩,
            ⟨"op-1", [], none⟩⟩], false⟩] {}).2.fs ["w", "evil.txt"]
        = dataAt ({} : ExecState).fs ["w", "evil.txt"]) :=
  ⟨rfl, c3_path_safety ⟨["w"], true, false, fun s => s, 10⟩
    [⟨"stage-1",
      [⟨.file ⟨.ensure, "../evil.txt", some "x", none, none⟩,
        ⟨"op-1", [], none⟩⟩], false⟩] {} rfl (by intro kv h; cases h)
    ⟨.file ⟨.ensure, "../evil.txt", some "x", none, none⟩, ⟨"op-1", [], none⟩⟩
    (by decide) "../evil.txt" rfl
    "Operation path ../evil.txt escapes workspace root." rfl
    ["w", "evil.txt"]⟩

/-! ## Journal bookkeeping: the entry appended by `beforeOperation` and its
update by `afterOperation` -/

theorem journalBefore_some (ρ : ExecParams) (op : OperationWithMetadata)
    (st : ExecState) (j : JournalState) (hj : st.journal = some j) :
    journalBefore ρ op st = { st with journal := some { j with
        entries := j.entries ++ [{ timestamp := st.clock, operation := op,
                                   before := captureSnapshot ρ st.fs op }],
        entryIndex := alSet j.entryIndex op.metadata.id j.entries.length } } := by
  unfold journalBefore
  rw [hj]

theorem set_concat_length (l : List α) (a b : α) :
    (l ++ [a]).set l.length b = l ++ [b] := by
  induction l with
  | nil => rfl
  | cons x xs ih => simp [ih]

theorem get?_concat_length (l : List α) (a : α) :
    (l ++ [a]).get? l.length = some a := by
  induction l with
  | nil => rfl
  | cons x xs ih => simp [ih]

theorem journalAfter_fresh (ρ : ExecParams) (op : OperationWithMetadata)
    (bp : Option Nat) (st : ExecState) (j : JournalState)
    (E : List JournalEntry) (en : JournalEntry)
    (hj : st.journal = some j)
    (hidx : alGet j.entryIndex op.metadata.id = some E.length)
    (hent : j.entries = E ++ [en]) :
    journalAfter ρ op bp st = { st with journal := some { j with
        entries := E ++ [{ en with
            after := some (captureSnapshot ρ st.fs op),
            backupPath := match bp with
              | some b => some b
              | none => en.backupPath }],
        artifactBackups := match bp with
          | some b => j.artifactBackups ++ [b]
          | none => j.artifactBackups } } := by
  unfold journalAfter
  rw [hj]
  dsimp only
  rw [hidx]
  dsimp only
  rw [hent, get?_concat_length]
  dsimp only
  rw [set_concat_length]

theorem mutatedState_journal (st : ExecState) (target : Path)
    (fs' : List (Path × FileEntry)) (created : Bool) :
    (mutatedState st target fs' created).journal = st.journal := by
  rw [mutatedState]
  show (createBackupIfNeeded target st).2.journal = st.journal
  exact createBackupIfNeeded_journal target st

theorem mutatedState_backups_none (st : ExecState) (target : Path)
    (fs' : List (Path × FileEntry)) (created : Bool)
    (halGet : alGet st.fs target = none) :
    (mutatedState st target fs' created).backups = st.backups := by
  rw [mutatedState, createBackupIfNeeded_none target st halGet]
  rfl

theorem mutatedState_backups_some (st : ExecState) (target : Path)
    (fs' : List (Path × FileEntry)) (created : Bool) (e : FileEntry)
    (halGet : alGet st.fs target = some e) :
    (mutatedState st target fs' created).backups
      = st.backups ++ [(st.clock, e.data)] := by
  rw [mutatedState, createBackupIfNeeded_some target st e halGet]
  rfl

theorem persistJournal_shape (st : ExecState) (j : JournalState)
    (hj : st.journal = some j) :
    ∃ jF, (persistJournal st).journal = some jF ∧ jF.entries = j.entries ∧
      (persistJournal st).backups = st.backups ∧
      (persistJournal st).fs = st.fs := by
  unfold persistJournal
  rw [hj]
  dsimp only
  by_cases h : j.entries.length = 0
  · rw [if_pos h]
    exact ⟨j, hj, rfl, rfl, rfl⟩
  · rw [if_neg h]
    exact ⟨_, rfl, rfl, rfl, rfl⟩

/-- The net journal effect of one operation's `beforeOperation` /
`afterOperation` pair: one entry is appended, carrying the before snapshot,
an after snapshot, and exactly the backup path the applier reported. -/
theorem journal_roundtrip (ρ : ExecParams) (op : OperationWithMetadata)
    (st : ExecState) (j : JournalState) (hj : st.journal = some j)
    (bp : Option Nat) (st' : ExecState)
    (hj' : st'.journal = (journalBefore ρ op st).journal) :
    ∃ j2, (journalAfter ρ op bp st').journal = some j2 ∧
      (journalAfter ρ op bp st').backups = st'.backups ∧
      (journalAfter ρ op bp st').logs = st'.logs ∧
      (journalAfter ρ op bp st').fs = st'.fs ∧
      j2.entries = j.entries ++
        [{ timestamp := st.clock, operation := op,
           before := captureSnapshot ρ st.fs op,
           after := some (captureSnapshot ρ st'.fs op),
           backupPath := bp }] ∧
      j2.logPath = j.logPath := by
  have hjb := journalBefore_some ρ op st j hj
  have hj'1 : st'.journal = some { j with
      entries := j.entries ++ [{ timestamp := st.clock, operation := op,
                                 before := captureSnapshot ρ st.fs op }],
      entryIndex := alSet j.entryIndex op.metadata.id j.entries.length } := by
    rw [hj', hjb]
  have hja := journalAfter_fresh ρ op bp st' _ j.entries
    { timestamp := st.clock, operation := op,
      before := captureSnapshot ρ st.fs op } hj'1
    (alGet_alSet_self _ _ _) rfl
  rw [hja]
  refine ⟨_, rfl, rfl, rfl, rfl, ?_, rfl⟩
  cases bp <;> rfl

theorem corr_step (ρ : ExecParams) (op : OperationWithMetadata)
    (st : ExecState) (j : JournalState) (hj : st.journal = some j)
    (hcorr : st.backups.map Prod.fst
      = j.entries.filterMap (fun en => en.backupPath))
    (bp : Option Nat) (st' : ExecState)
    (hj' : st'.journal = (journalBefore ρ op st).journal)
    (hbk : st'.backups.map Prod.fst = st.backups.map Prod.fst ++ bp.toList) :
    ∃ j2, (journalAfter ρ op bp st').journal = some j2 ∧
      (journalAfter ρ op bp st').backups.map Prod.fst
        = j2.entries.filterMap (fun en => en.backupPath) := by
  obtain ⟨j2, hj2, hbk2, -, -, hent2, -⟩ :=
    journal_roundtrip ρ op st j hj bp st' hj'
  refine ⟨j2, hj2, ?_⟩
  rw [hbk2, hbk, hent2, List.filterMap_append, ← hcorr]
  cases bp <;> rfl

theorem execOps_backup_corr (ρ : ExecParams)
    (ops : List OperationWithMetadata) :
    ∀ (applied : List OperationWithMetadata) (st : ExecState)
      (j : JournalState), st.journal = some j →
      st.backups.map Prod.fst = j.entries.filterMap (fun en => en.backupPath) →
      ∃ jF, (execOps ρ ops applied st).2.journal = some jF ∧
        (execOps ρ ops applied st).2.backups.map Prod.fst
          = jF.entries.filterMap (fun en => en.backupPath) := by
  induction ops with
  | nil =>
      intro applied st j hj hcorr
      simp only [execOps]
      obtain ⟨jF, hjF, hent, hbk, -⟩ := persistJournal_shape st j hj
      refine ⟨jF, hjF, ?_⟩
      rw [hbk, hent]
      exact hcorr
  | cons op rest ih =>
      intro applied st j hj hcorr
      have hb1 : (journalBefore ρ op st).backups = st.backups :=
        (journalBefore_core ρ op st).2.1
      by_cases hdry : ρ.dryRun = true
      · simp only [execOps, hdry, eq_self_iff_true, if_true]
        cases hsim : simulateOperation op with
        | ok u =>
            dsimp only
            obtain ⟨j2, hj2, hc2⟩ := corr_step ρ op st j hj hcorr none
              (journalBefore ρ op st) rfl (by rw [hb1]; simp)
            exact ih _ _ j2 hj2 hc2
        | error e =>
            dsimp only
            exact ⟨j, hj, hcorr⟩
      · simp only [execOps, if_neg hdry]
        cases happ : applyOperation ρ op (journalBefore ρ op st) with
        | error e =>
            dsimp only
            have hjb := journalBefore_some ρ op st j hj
            rw [hjb]
            refine ⟨_, rfl, ?_⟩
            rw [List.filterMap_append, ← hcorr]
            simp [rollbackMutations]
        | ok trip =>
            obtain ⟨c, b, st'⟩ := trip
            dsimp only
            obtain ⟨target, hout⟩ :=
              applyOperation_cases ρ op (journalBefore ρ op st) c b st' happ
            rcases hout with ⟨rfl, rfl, rfl⟩ |
              ⟨fs', created, -, -, rfl, hb, rfl⟩
            · obtain ⟨j2, hj2, hc2⟩ := corr_step ρ op st j hj hcorr none
                (journalBefore ρ op st) rfl (by rw [hb1]; simp)
              exact ih _ _ j2 hj2 hc2
            · cases halGet : alGet (journalBefore ρ op st).fs target with
              | none =>
                  have hbnone : b = none := by
                    rw [hb, createBackupIfNeeded_none _ _ halGet]
                  subst hbnone
                  obtain ⟨j2, hj2, hc2⟩ := corr_step ρ op st j hj hcorr none
                    (mutatedState (journalBefore ρ op st) target fs' created)
                    (mutatedState_journal _ _ _ _)
                    (by rw [mutatedState_backups_none _ _ _ _ halGet, hb1]
                        simp)
                  exact ih _ _ j2 hj2 hc2
              | some e =>
                  have hbsome : b = some (journalBefore ρ op st).clock := by
                    rw [hb, createBackupIfNeeded_some _ _ e halGet]
                  subst hbsome
                  obtain ⟨j2, hj2, hc2⟩ := corr_step ρ op st j hj hcorr
                    (some (journalBefore ρ op st).clock)
                    (mutatedState (journalBefore ρ op st) target fs' created)
                    (mutatedState_journal _ _ _ _)
                    (by rw [mutatedState_backups_some _ _ _ _ e halGet]
                        rw [List.map_append, hb1]
                        simp)
                  exact ih _ _ j2 hj2 hc2

/-- C4: backup/journal correspondence — for a run over a journal whose
entries and the backup store agree to start with (in particular a fresh
journal and an empty backup directory), the backup files on disk after the
run are keyed exactly by the `backupPath` values recorded in the journal
entries, in order; and `createBackupIfNeeded` creates a backup precisely
when the target file existed prior to the mutation. -/
theorem c4_backup_journal_correspondence (ρ : ExecParams)
    (plan : List PlanStage) (st : ExecState) (j : JournalState)
    (hj : st.journal = some j)
    (hcorr0 : st.backups.map Prod.fst
      = j.entries.filterMap (fun en => en.backupPath)) :
    (∃ jF, (execute ρ plan st).2.journal = some jF ∧
      (execute ρ plan st).2.backups.map Prod.fst
        = jF.entries.filterMap (fun en => en.backupPath)) ∧
    ∀ (target : Path) (s : ExecState),
      ((createBackupIfNeeded target s).1.isSome
        ↔ (alGet s.fs target).isSome) := by
  constructor
  · unfold execute
    exact execOps_backup_corr ρ _ [] _ j hj hcorr0
  · intro target s
    unfold createBackupIfNeeded
    cases alGet s.fs target <;> simp

theorem c4_backup_journal_correspondence_witness :
    (∃ jF, (execute ⟨["w"], true, false, fun s => s, 10⟩
        [⟨"stage-1",
          [⟨.file ⟨.ensure, "a.txt", some "new", none, none⟩,
            ⟨"op-1", [], none⟩⟩], false⟩]
        ⟨[(["w", "a.txt"], ⟨.text "old", 420⟩)], [], [], 5, [], [],
          some ⟨[], [], none, [], []⟩⟩).2.journal = some jF ∧
      (execute ⟨["w"], true, false, fun s => s, 10⟩
        [⟨"stage-1",
          [⟨.file ⟨.ensure, "a.txt", some "new", none, none⟩,
            ⟨"op-1", [], none⟩⟩], false⟩]
        ⟨[(["w", "a.txt"], ⟨.text "old", 420⟩)], [], [], 5, [], [],
          some ⟨[], [], none, [], []⟩⟩).2.backups.map Prod.fst
        = jF.entries.filterMap (fun en => en.backupPath)) ∧
    ∀ (target : Path) (s : ExecState),
      ((createBackupIfNeeded target s).1.isSome
        ↔ (alGet s.fs target).isSome) :=
  c4_backup_journal_correspondence ⟨["w"], true, false, fun s => s, 10⟩
    [⟨"stage-1",
      [⟨.file ⟨.ensure, "a.txt", some "new", none, none⟩,
        ⟨"op-1", [], none⟩⟩], false⟩]
    ⟨[(["w", "a.txt"], ⟨.text "old", 420⟩)], [], [], 5, [], [],
      some ⟨[], [], none, [], []⟩⟩
    ⟨[], [], none, [], []⟩ rfl rfl

/-! ## Dry runs still journal every operation and persist the log -/

theorem alSet_ne_nil [DecidableEq α] (l : List (α × β)) (k : α) (v : β) :
    alSet l k v ≠ [] := by
  cases l with
  | nil => simp [alSet]
  | cons kv rest =>
      obtain ⟨k1, w⟩ := kv
      by_cases h : k1 = k <;> simp [alSet, h]

theorem journalLogPath_eq (s : ExecState) (js : JournalState)
    (h : s.journal = some js) : journalLogPath s = js.logPath := by
  unfold journalLogPath
  rw [h]

theorem persistJournal_persists (st : ExecState) (j : JournalState)
    (hj : st.journal = some j) (hne : ¬ j.entries.length = 0) :
    ∃ key, (persistJournal st).journal
        = some { j with logPath := some key, artifactLogs := [key] } ∧
      (persistJournal st).logs = alSet st.logs key j.entries := by
  unfold persistJournal
  rw [hj]
  dsimp only
  rw [if_neg hne]
  exact ⟨_, rfl, rfl⟩

theorem execOps_dry_journal (ρ : ExecParams) (hdry : ρ.dryRun = true)
    (ops : List OperationWithMetadata) :
    ∀ (applied : List OperationWithMetadata) (st : ExecState)
      (j : JournalState), st.journal = some j →
      (∀ op ∈ ops, simulateOperation op = .ok ()) →
      (∀ en ∈ j.entries, en.after.isSome = true) →
      (execOps ρ ops applied st).1.success = true ∧
      ∃ jF, (execOps ρ ops applied st).2.journal = some jF ∧
        jF.entries.length = j.entries.length + ops.length ∧
        (∀ en ∈ jF.entries, en.after.isSome = true) ∧
        (¬ j.entries.length + ops.length = 0 →
          (execOps ρ ops applied st).1.logPath.isSome = true ∧
          (execOps ρ ops applied st).2.logs ≠ []) := by
  induction ops with
  | nil =>
      intro applied st j hj hsim hafter
      simp only [execOps]
      by_cases hne : j.entries.length = 0
      · obtain ⟨jF, hjF, hent, -, -⟩ := persistJournal_shape st j hj
        refine ⟨trivial, jF, hjF, by rw [hent]; simp, ?_, ?_⟩
        · rw [hent]
          exact hafter
        · intro hcon
          exact (hcon (by simpa using hne)).elim
      · obtain ⟨key, hjF, hlogs⟩ := persistJournal_persists st j hj hne
        refine ⟨trivial, _, hjF, by simp, hafter, ?_⟩
        intro hcon
        constructor
        · show (journalLogPath (persistJournal st)).isSome = true
          rw [journalLogPath_eq _ _ hjF]
          rfl
        · show (persistJournal st).logs ≠ []
          rw [hlogs]
          exact alSet_ne_nil _ _ _
  | cons op rest ih =>
      intro applied st j hj hsim hafter
      simp only [execOps, hdry, eq_self_iff_true, if_true]
      have hsimop := hsim op (List.mem_cons_self _ _)
      rw [hsimop]
      dsimp only
      obtain ⟨j2, hj2, -, -, -, hent2, -⟩ := journal_roundtrip ρ op st j hj
        none (journalBefore ρ op st) rfl
      have h21 : j2.entries.length = j.entries.length + 1 := by
        rw [hent2]
        simp
      have hafter2 : ∀ en ∈ j2.entries, en.after.isSome = true := by
        rw [hent2]
        intro en hen
        rcases List.mem_append.mp hen with h | h
        · exact hafter en h
        · rcases List.mem_singleton.mp h with rfl
          rfl
      obtain ⟨hsucc, jF, hjF, hlen, hafterF, hlog⟩ :=
        ih applied (journalAfter ρ op none (journalBefore ρ op st)) j2 hj2
          (fun o ho => hsim o (List.mem_cons_of_mem _ ho)) hafter2
      refine ⟨hsucc, jF, hjF, ?_, hafterF, ?_⟩
      · rw [hlen, h21]
        simp only [List.length_cons]
        omega
      · intro hcon
        refine hlog ?_
        simp only [List.length_cons] at hcon
        omega

/-- C10: dry runs and the journal — under `dryRun = true` with a journal
whose entry list starts empty, `execute` still calls the journal's
`beforeOperation`/`afterOperation` hooks for every operation (one entry per
operation, each with an after snapshot recorded) and, when every operation
simulates successfully and the plan is non-empty, persists the journal: the
run reports a log path and a log file is written to disk. -/
theorem c10_dry_run_journal (ρ : ExecParams) (plan : List PlanStage)
    (st : ExecState) (j : JournalState) (hdry : ρ.dryRun = true)
    (hj : st.journal = some j) (hent0 : j.entries = [])
    (hne : plan.flatMap (·.operations) ≠ [])
    (hsim : ∀ op ∈ plan.flatMap (·.operations),
      simulateOperation op = .ok ()) :
    (execute ρ plan st).1.success = true ∧
    (execute ρ plan st).1.logPath.isSome = true ∧
    (execute ρ plan st).2.logs ≠ [] ∧
    ∃ jF, (execute ρ plan st).2.journal = some jF ∧
      jF.entries.length = (plan.flatMap (·.operations)).length ∧
      ∀ en ∈ jF.entries, en.after.isSome = true := by
  unfold execute
  obtain ⟨hsucc, jF, hjF, hlen, hafterF, hlog⟩ :=
    execOps_dry_journal ρ hdry (plan.flatMap (·.operations)) []
      { st with mutations := [], backupRegistry := [] } j hj hsim
      (by rw [hent0]; intro en hen; cases hen)
  have hnz : ¬ j.entries.length + (plan.flatMap (·.operations)).length
      = 0 := by
    intro h
    rw [hent0] at h
    simp only [List.length_nil, Nat.zero_add] at h
    exact hne (List.length_eq_zero.mp h)
  obtain ⟨hlp, hlogs⟩ := hlog hnz
  refine ⟨hsucc, hlp, hlogs, jF, hjF, ?_, hafterF⟩
  rw [hlen, hent0]
  simp

theorem c10_dry_run_journal_witness :
    (execute ⟨[], true, true, fun s => s, 10⟩
        [⟨"stage-1",
          [⟨.file ⟨.ensure, "a.txt", some "x", none, none⟩,
            ⟨"op-1", [], none⟩⟩], false⟩]
        ⟨[], [], [], 0, [], [], some ⟨[], [], none, [], []⟩⟩).1.success
      = true ∧
    (execute ⟨[], true, true, fun s => s, 10⟩
        [⟨"stage-1",
          [⟨.file ⟨.ensure, "a.txt", some "x", none, none⟩,
            ⟨"op-1", [], none⟩⟩], false⟩]
        ⟨[], [], [], 0, [], [], some ⟨[], [], none, [], []⟩⟩).1.logPath.isSome
      = true ∧
    (execute ⟨[], true, true, fun s => s, 10⟩
        [⟨"stage-1",
          [⟨.file ⟨.ensure, "a.txt", some "x", none, none⟩,
            ⟨"op-1", [], none⟩⟩], false⟩]
        ⟨[], [], [], 0, [], [], some ⟨[], [], none, [], []⟩⟩).2.logs ≠ [] ∧
    ∃ jF, (execute ⟨[], true, true, fun s => s, 10⟩
        [⟨"stage-1",
          [⟨.file ⟨.ensure, "a.txt", some "x", none, none⟩,
            ⟨"op-1", [], none⟩⟩], false⟩]
        ⟨[], [], [], 0, [], [], some ⟨[], [], none, [], []⟩⟩).2.journal
        = some jF ∧
      jF.entries.length
        = (([⟨"stage-1",
            [⟨.file ⟨.ensure, "a.txt", some "x", none, none⟩,
              ⟨"op-1", [], none⟩⟩], false⟩] :
            List PlanStage).flatMap (·.operations)).length ∧
      ∀ en ∈ jF.entries, en.after.isSome = true :=
  c10_dry_run_journal ⟨[], true, true, fun s => s, 10⟩
    [⟨"stage-1",
      [⟨.file ⟨.ensure, "a.txt", some "x", none, none⟩,
        ⟨"op-1", [], none⟩⟩], false⟩]
    ⟨[], [], [], 0, [], [], some ⟨[], [], none, [], []⟩⟩
    ⟨[], [], none, [], []⟩ rfl rfl rfl
    (by intro h; exact List.noConfusion h)
    (by intro op hop; cases hop with
        | head => rfl
        | tail _ h => cases h)

/-! ## Idempotence of file-operation plans -/

def Operation.isFile : Operation → Bool
  | .file _ => true
  | _ => false

/-- The workspace path an operation's applier will mutate, when its declared
path resolves inside the root. -/
def resolvedTarget? (ρ : ExecParams) (op : OperationWithMetadata) :
    Option Path :=
  match Operation.targetPath? op.operation with
  | some s => (resolveWorkspacePath ρ.workspaceRoot s).toOption
  | none => none

theorem applyOperation_resolved (ρ : ExecParams) (op : OperationWithMetadata)
    (st : ExecState) (c : Bool) (b : Option Nat) (st' : ExecState)
    (h : applyOperation ρ op st = .ok (c, b, st')) :
    ∃ target, resolvedTarget? ρ op = some target ∧
      OkOutcome st target c b st' := by
  cases hop : op.operation with
  | file o =>
      rw [applyOperation, hop] at h
      obtain ⟨target, hres, hout⟩ :=
        applyFileOperation_cases ρ o op.metadata st c b st' h
      exact ⟨target, by simp [resolvedTarget?, Operation.targetPath?, hop,
        hres, Except.toOption], hout⟩
  | config o =>
      rw [applyOperation, hop] at h
      obtain ⟨target, hres, hout⟩ :=
        applyConfigOperation_cases ρ o st c b st' h
      exact ⟨target, by simp [resolvedTarget?, Operation.targetPath?, hop,
        hres, Except.toOption], hout⟩
  | script o =>
      rw [applyOperation, hop] at h
      obtain ⟨target, hres, hout⟩ :=
        applyScriptOperation_cases ρ o st c b st' h
      exact ⟨target, by simp [resolvedTarget?, Operation.targetPath?, hop,
        hres, Except.toOption], hout⟩
  | code =>
      rw [applyOperation, hop] at h
      exact Except.noConfusion h

/-- A file operation is satisfied by a filesystem when a delete's target is
absent, and an ensure/update's target holds exactly the resolved content. -/
def FileOpSat (ρ : ExecParams) (op : OperationWithMetadata)
    (fs : List (Path × FileEntry)) : Prop :=
  ∀ o, op.operation = .file o →
    ∃ target, resolveWorkspacePath ρ.workspaceRoot o.path = .ok target ∧
      (if o.action = .delete then alGet fs target = none
       else ∃ c e, resolveFileContent o op.metadata = .ok c ∧
         alGet fs target = some e ∧ e.data.bytes = c)

theorem alGet_fsChmod_self (fs : List (Path × FileEntry)) (p : Path)
    (m : Nat) (e : FileEntry) (h : alGet fs p = some e) :
    alGet (fsChmod fs p m) p = some { e with mode := m } := by
  unfold fsChmod
  rw [h]
  exact alGet_alSet_self _ _ _

/-- A successful file-operation application leaves its target satisfied. -/
theorem applyFileOperation_post (ρ : ExecParams) (o : FileOperation)
    (meta : OperationMetadata) (st : ExecState) (c : Bool) (b : Option Nat)
    (st' : ExecState) (h : applyFileOperation ρ o meta st = .ok (c, b, st')) :
    ∃ target, resolveWorkspacePath ρ.workspaceRoot o.path = .ok target ∧
      (if o.action = .delete then alGet st'.fs target = none
       else ∃ cc e, resolveFileContent o meta = .ok cc ∧
         alGet st'.fs target = some e ∧ e.data.bytes = cc) := by
  unfold applyFileOperation at h
  cases hres : resolveWorkspacePath ρ.workspaceRoot o.path with
  | error e =>
      rw [hres] at h
      exact Except.noConfusion h
  | ok target =>
      rw [hres] at h
      dsimp only at h
      refine ⟨target, rfl, ?_⟩
      by_cases hdel : o.action = .delete
      · rw [if_pos hdel] at h ⊢
        cases halGet : alGet st.fs target with
        | none =>
            rw [halGet] at h
            simp only [Except.ok.injEq, Prod.mk.injEq] at h
            obtain ⟨-, -, rfl⟩ := h
            exact halGet
        | some e =>
            rw [halGet] at h
            simp only [Except.ok.injEq, Prod.mk.injEq] at h
            obtain ⟨-, -, rfl⟩ := h
            show alGet (alRemove (createBackupIfNeeded target st).2.fs target)
              target = none
            exact alGet_alRemove_self _ _
      · rw [if_neg hdel] at h ⊢
        cases hrc : resolveFileContent o meta with
        | error e =>
            rw [hrc] at h
            exact Except.noConfusion h
        | ok nextContent =>
            rw [hrc] at h
            dsimp only at h
            cases halGet : alGet st.fs target with
            | some e =>
                rw [halGet] at h
                dsimp only at h
                by_cases heq : e.data.bytes = nextContent
                · rw [if_pos heq] at h
                  simp only [Except.ok.injEq, Prod.mk.injEq] at h
                  obtain ⟨-, -, rfl⟩ := h
                  exact ⟨nextContent, e, rfl, halGet, heq⟩
                · rw [if_neg heq] at h
                  cases hmode : o.mode with
                  | some m =>
                      rw [hmode] at h
                      simp only [Except.ok.injEq, Prod.mk.injEq] at h
                      obtain ⟨-, -, rfl⟩ := h
                      obtain ⟨mm, hmm⟩ := alGet_fsWrite_self
                        (createBackupIfNeeded target st).2.fs target
                        (.text nextContent)
                      exact ⟨nextContent, _, rfl,
                        alGet_fsChmod_self _ _ m _ hmm, rfl⟩
                  | none =>
                      rw [hmode] at h
                      simp only [Except.ok.injEq, Prod.mk.injEq] at h
                      obtain ⟨-, -, rfl⟩ := h
                      obtain ⟨mm, hmm⟩ := alGet_fsWrite_self
                        (createBackupIfNeeded target st).2.fs target
                        (.text nextContent)
                      exact ⟨nextContent, _, rfl, hmm, rfl⟩
            | none =>
                rw [halGet] at h
                dsimp only at h
                cases hmode : o.mode with
                | some m =>
                    rw [hmode] at h
                    simp only [Except.ok.injEq, Prod.mk.injEq] at h
                    obtain ⟨-, -, rfl⟩ := h
                    obtain ⟨mm, hmm⟩ := alGet_fsWrite_self st.fs target
                      (.text nextContent)
                    exact ⟨nextContent, _, rfl,
                      alGet_fsChmod_self _ _ m _ hmm, rfl⟩
                | none =>
                    rw [hmode] at h
                    simp only [Except.ok.injEq, Prod.mk.injEq] at h
                    obtain ⟨-, -, rfl⟩ := h
                    obtain ⟨mm, hmm⟩ := alGet_fsWrite_self st.fs target
                      (.text nextContent)
                    exact ⟨nextContent, _, rfl, hmm, rfl⟩

/-- A satisfied file operation is a no-op reporting `changed = false`. -/
theorem applyFileOperation_noop (ρ : ExecParams) (o : FileOperation)
    (meta : OperationMetadata) (st : ExecState) (target : Path)
    (hres : resolveWorkspacePath ρ.workspaceRoot o.path = .ok target)
    (hsat : if o.action = .delete then alGet st.fs target = none
            else ∃ c e, resolveFileContent o meta = .ok c ∧
              alGet st.fs target = some e ∧ e.data.bytes = c) :
    applyFileOperation ρ o meta st = .ok (false, none, st) := by
  unfold applyFileOperation
  rw [hres]
  dsimp only
  by_cases hdel : o.action = .delete
  · rw [if_pos hdel] at hsat ⊢
    rw [hsat]
  · rw [if_neg hdel] at hsat ⊢
    obtain ⟨c, e, hrc, hget, hbytes⟩ := hsat
    rw [hrc]
    dsimp only
    rw [hget]
    dsimp only
    rw [if_pos hbytes]

theorem persistJournal_fs (st : ExecState) : (persistJournal st).fs = st.fs := by
  unfold persistJournal
  cases st.journal with
  | none => rfl
  | some j =>
      dsimp only
      by_cases h : j.entries.length = 0
      · rw [if_pos h]
      · rw [if_neg h]

theorem OkOutcome.frame {st : ExecState} {target : Path} {c : Bool}
    {b : Option Nat} {st' : ExecState} (hout : OkOutcome st target c b st')
    (q : Path) (hq : q ≠ target) : alGet st'.fs q = alGet st.fs q := by
  rcases hout with ⟨-, -, rfl⟩ | ⟨fs', created, hframe, -, -, -, rfl⟩
  · rfl
  · exact hframe q hq

theorem execOps_frame (ρ : ExecParams) (hdry : ρ.dryRun = false)
    (ops : List OperationWithMetadata) :
    ∀ (applied : List OperationWithMetadata) (st : ExecState) (q : Path),
      (∀ op ∈ ops, resolvedTarget? ρ op ≠ some q) →
      (execOps ρ ops applied st).1.success = true →
      alGet (execOps ρ ops applied st).2.fs q = alGet st.fs q := by
  induction ops with
  | nil =>
      intro applied st q hnt hsucc
      simp only [execOps]
      rw [persistJournal_fs]
  | cons op rest ih =>
      intro applied st q hnt hsucc
      simp only [execOps, hdry, Bool.false_eq_true, if_false] at hsucc ⊢
      cases happ : applyOperation ρ op (journalBefore ρ op st) with
      | error e =>
          rw [happ] at hsucc
          simp at hsucc
      | ok trip =>
          obtain ⟨c, b, st'⟩ := trip
          rw [happ] at hsucc
          dsimp only at hsucc ⊢
          obtain ⟨target, hrt, hout⟩ :=
            applyOperation_resolved ρ op _ c b st' happ
          have hq : q ≠ target := by
            intro hqt
            subst hqt
            exact hnt op (List.mem_cons_self _ _) hrt
          rw [ih _ _ q (fun o ho => hnt o (List.mem_cons_of_mem _ ho)) hsucc,
            (journalAfter_core ρ op b st').1, hout.frame q hq,
            (journalBefore_core ρ op st).1]

theorem execOps_establishes (ρ : ExecParams) (hdry : ρ.dryRun = false)
    (ops : List OperationWithMetadata) :
    ∀ (applied : List OperationWithMetadata) (st : ExecState),
      (∀ op ∈ ops, op.operation.isFile = true) →
      ops.Pairwise (fun a b => resolvedTarget? ρ a ≠ resolvedTarget? ρ b) →
      (execOps ρ ops applied st).1.success = true →
      ∀ op ∈ ops, FileOpSat ρ op (execOps ρ ops applied st).2.fs := by
  induction ops with
  | nil =>
      intro applied st hfile hpw hsucc op hmem
      cases hmem
  | cons op0 rest ih =>
      intro applied st hfile hpw hsucc op hmem
      simp only [execOps, hdry, Bool.false_eq_true, if_false] at hsucc ⊢
      obtain ⟨hpw0, hpwrest⟩ := List.pairwise_cons.mp hpw
      cases happ : applyOperation ρ op0 (journalBefore ρ op0 st) with
      | error e =>
          rw [happ] at hsucc
          simp at hsucc
      | ok trip =>
          obtain ⟨c, b, st'⟩ := trip
          rw [happ] at hsucc
          dsimp only at hsucc ⊢
          rcases List.mem_cons.mp hmem with rfl | hmem
          · have hfo := hfile op (List.mem_cons_self _ _)
            cases hop : op.operation with
            | config o => rw [hop] at hfo; simp [Operation.isFile] at hfo
            | script o => rw [hop] at hfo; simp [Operation.isFile] at hfo
            | code => rw [hop] at hfo; simp [Operation.isFile] at hfo
            | file o =>
                rw [applyOperation, hop] at happ
                obtain ⟨target, hres, hsat'⟩ :=
                  applyFileOperation_post ρ o op.metadata _ c b st' happ
                have hrt : resolvedTarget? ρ op = some target := by
                  simp [resolvedTarget?, Operation.targetPath?, hop, hres,
                    Except.toOption]
                have htargets : ∀ b' ∈ rest,
                    resolvedTarget? ρ b' ≠ some target := by
                  intro b' hb' hcontra
                  exact hpw0 b' hb' (by rw [hrt, hcontra])
                have hfr := execOps_frame ρ hdry rest
                  (if c = true then applied ++ [op] else applied)
                  (journalAfter ρ op b st') target htargets hsucc
                rw [(journalAfter_core ρ op b st').1] at hfr
                intro o' hop'
                rw [hop] at hop'
                injection hop' with ho'
                subst ho'
                refine ⟨target, hres, ?_⟩
                by_cases hdel : o.action = .delete
                · rw [if_pos hdel] at hsat' ⊢
                  rw [hfr]
                  exact hsat'
                · rw [if_neg hdel] at hsat' ⊢
                  obtain ⟨cc, e, hrc, hget, hbytes⟩ := hsat'
                  exact ⟨cc, e, hrc, by rw [hfr]; exact hget, hbytes⟩
          · exact ih _ _ (fun o ho => hfile o (List.mem_cons_of_mem _ ho))
              hpwrest hsucc op hmem

theorem execOps_noop_run (ρ : ExecParams) (hdry : ρ.dryRun = false)
    (ops : List OperationWithMetadata) :
    ∀ (applied : List OperationWithMetadata) (st : ExecState),
      (∀ op ∈ ops, op.operation.isFile = true) →
      (∀ op ∈ ops, FileOpSat ρ op st.fs) →
      (execOps ρ ops applied st).1.applied = applied ∧
      (execOps ρ ops applied st).2.fs = st.fs ∧
      (execOps ρ ops applied st).1.success = true := by
  induction ops with
  | nil =>
      intro applied st hfile hsat
      simp only [execOps]
      exact ⟨trivial, persistJournal_fs st, trivial⟩
  | cons op rest ih =>
      intro applied st hfile hsat
      simp only [execOps, hdry, Bool.false_eq_true, if_false]
      have hfo := hfile op (List.mem_cons_self _ _)
      have hsat0 := hsat op (List.mem_cons_self _ _)
      cases hop : op.operation with
      | config o => rw [hop] at hfo; simp [Operation.isFile] at hfo
      | script o => rw [hop] at hfo; simp [Operation.isFile] at hfo
      | code => rw [hop] at hfo; simp [Operation.isFile] at hfo
      | file o =>
          obtain ⟨target, hres, hs⟩ := hsat0 o hop
          have hnoop : applyOperation ρ op (journalBefore ρ op st)
              = .ok (false, none, journalBefore ρ op st) := by
            rw [applyOperation, hop]
            dsimp only
            refine applyFileOperation_noop ρ o op.metadata _ target hres ?_
            rw [(journalBefore_core ρ op st).1]
            exact hs
          rw [hnoop]
          dsimp only
          simp only [Bool.false_eq_true, if_false]
          have hfs2 : (journalAfter ρ op none (journalBefore ρ op st)).fs
              = st.fs := by
            rw [(journalAfter_core ρ op none _).1,
              (journalBefore_core ρ op st).1]
          obtain ⟨ha, hf, hsu⟩ := ih applied
            (journalAfter ρ op none (journalBefore ρ op st))
            (fun o' ho' => hfile o' (List.mem_cons_of_mem _ ho'))
            (fun o' ho' => by
              rw [hfs2]
              exact hsat o' (List.mem_cons_of_mem _ ho'))
          exact ⟨ha, by rw [hf, hfs2], hsu⟩

/-- C1: counterexample to plan idempotence as stated — a plan holding one
script operation executes successfully, and a second execution of the very
same plan on the resulting workspace succeeds but reports the script
operation as applied again (`applied ≠ []`): the script applier reports
`changed: true` unconditionally on every completing path, before the
manifest write-back, rather than deciding `changed` first. -/
theorem c1_idempotence_counterexample :
    (execute ⟨[], true, false, fun s => s, 10⟩
        [⟨"stage-1",
          [⟨.script ⟨.ensure, "package.json", "build", some "tsc", none⟩,
            ⟨"op-1", [], none⟩⟩], false⟩] {}).1.success = true ∧
    (execute ⟨[], true, false, fun s => s, 10⟩
        [⟨"stage-1",
          [⟨.script ⟨.ensure, "package.json", "build", some "tsc", none⟩,
            ⟨"op-1", [], none⟩⟩], false⟩]
        ((execute ⟨[], true, false, fun s => s, 10⟩
          [⟨"stage-1",
            [⟨.script ⟨.ensure, "package.json", "build", some "tsc", none⟩,
              ⟨"op-1", [], none⟩⟩], false⟩] {}).2)).1.success = true ∧
    (execute ⟨[], true, false, fun s => s, 10⟩
        [⟨"stage-1",
          [⟨.script ⟨.ensure, "package.json", "build", some "tsc", none⟩,
            ⟨"op-1", [], none⟩⟩], false⟩]
        ((execute ⟨[], true, false, fun s => s, 10⟩
          [⟨"stage-1",
            [⟨.script ⟨.ensure, "package.json", "build", some "tsc", none⟩,
              ⟨"op-1", [], none⟩⟩], false⟩] {}).2)).1.applied ≠ [] :=
  ⟨rfl, rfl, by decide⟩

/-- C1 (amended): idempotence for file-operation plans — for a real run of
a plan whose operations are all file operations with pairwise distinct
resolved targets, after a first successful `execute` a second `execute` of
the same plan reports `applied = []` and leaves the filesystem identical.
(Script operations are exempt: they are re-written and re-reported as
applied on every run, as the counterexample shows; the workspace bytes are
nevertheless unchanged in that case.) -/
theorem c1_file_plan_idempotence (ρ : ExecParams) (plan : List PlanStage)
    (st : ExecState) (hdry : ρ.dryRun = false)
    (hfile : ∀ op ∈ plan.flatMap (·.operations), op.operation.isFile = true)
    (hdist : (plan.flatMap (·.operations)).Pairwise
      (fun a b => resolvedTarget? ρ a ≠ resolvedTarget? ρ b))
    (h1 : (execute ρ plan st).1.success = true) :
    (execute ρ plan ((execute ρ plan st).2)).1.applied = [] ∧
    (execute ρ plan ((execute ρ plan st).2)).2.fs
      = (execute ρ plan st).2.fs := by
  unfold execute at h1 ⊢
  have hsat := execOps_establishes ρ hdry (plan.flatMap (·.operations)) []
    { st with mutations := [], backupRegistry := [] } hfile hdist h1
  obtain ⟨ha, hf, -⟩ := execOps_noop_run ρ hdry (plan.flatMap (·.operations))
    [] { (execOps ρ (plan.flatMap (·.operations)) []
          { st with mutations := [], backupRegistry := [] }).2 with
         mutations := [], backupRegistry := [] } hfile
    (fun op hop => hsat op hop)
  exact ⟨ha, hf⟩

theorem c1_file_plan_idempotence_witness :
    (execute ⟨[], true, false, fun s => s, 10⟩
        [⟨"stage-1",
          [⟨.file ⟨.ensure, "a.txt", some "x", none, none⟩,
            ⟨"op-1", [], none⟩⟩,
           ⟨.file ⟨.ensure, "b.txt", some "y", none, none⟩,
            ⟨"op-2", [], none⟩⟩], false⟩]
        ((execute ⟨[], true, false, fun s => s, 10⟩
          [⟨"stage-1",
            [⟨.file ⟨.ensure, "a.txt", some "x", none, none⟩,
              ⟨"op-1", [], none⟩⟩,
             ⟨.file ⟨.ensure, "b.txt", some "y", none, none⟩,
              ⟨"op-2", [], none⟩⟩], false⟩] {}).2)).1.applied = [] ∧
    (execute ⟨[], true, false, fun s => s, 10⟩
        [⟨"stage-1",
          [⟨.file ⟨.ensure, "a.txt", some "x", none, none⟩,
            ⟨"op-1", [], none⟩⟩,
           ⟨.file ⟨.ensure, "b.txt", some "y", none, none⟩,
            ⟨"op-2", [], none⟩⟩], false⟩]
        ((execute ⟨[], true, false, fun s => s, 10⟩
          [⟨"stage-1",
            [⟨.file ⟨.ensure, "a.txt", some "x", none, none⟩,
              ⟨"op-1", [], none⟩⟩,
             ⟨.file ⟨.ensure, "b.txt", some "y", none, none⟩,
              ⟨"op-2", [], none⟩⟩], false⟩] {}).2)).2.fs
      = (execute ⟨[], true, false, fun s => s, 10⟩
          [⟨"stage-1",
            [⟨.file ⟨.ensure, "a.txt", some "x", none, none⟩,
              ⟨"op-1", [], none⟩⟩,
             ⟨.file ⟨.ensure, "b.txt", some "y", none, none⟩,
              ⟨"op-2", [], none⟩⟩], false⟩] {}).2.fs :=
  c1_file_plan_idempotence ⟨[], true, false, fun s => s, 10⟩
    [⟨"stage-1",
      [⟨.file ⟨.ensure, "a.txt", some "x", none, none⟩,
        ⟨"op-1", [], none⟩⟩,
       ⟨.file ⟨.ensure, "b.txt", some "y", none, none⟩,
        ⟨"op-2", [], none⟩⟩], false⟩] {} rfl (by decide) (by decide) rfl

end SetupEngine
